import Mathlib

/-! # lrucache17: a shallow embedding of `LRUCache17.hpp`

The cache of `LRUCache17.hpp` owns two containers:

* `keys_`, a `std::list` of key/value pairs in recency order (head = most recent);
* `cache_`, a map from keys to iterators into `keys_`.

An iterator of a `std::list` is stable: it keeps designating the same node while the
node is moved inside the list.  The embedding therefore gives every list node an
address, allocated from a counter at `emplace_front`, and the map stores addresses.
Operations whose C++ behaviour is undefined (dereferencing an iterator whose node has
left the list, `back()` on an empty list) return `none`.

`size_t` is taken to be 64 bits wide: a `size_t` value is a natural number below
`2 ^ 64` and the sum `maxSize_ + elasticity_` is reduced modulo `2 ^ 64`.
The lock is the default `NullLock`, whose operations do nothing.

The wrapper `TimedCache` of `TimedLRUCache17.hpp` is embedded after the cache, with the
time points read from the clock as arguments and its comparison of durations in `double`.
-/

namespace lru17

/-- Number of values of the type `size_t` (64-bit). -/
def SIZE_WRAP : Nat := 2 ^ 64

/-- Error raised when a key not in the cache is passed to `get`. -/
inductive KeyNotFound where
  | key_not_found
deriving DecidableEq, Repr

/-- The pair stored in a list node, `KeyValuePair<K, V>`. -/
structure KeyValuePair (K V : Type) where
  key : K
  value : V
deriving DecidableEq, Repr

/-- A node of `std::list<KeyValuePair<K, V>>`: the stored pair together with the address
of the node, which is what an iterator to it holds. -/
structure Node (K V : Type) where
  addr : Nat
  key : K
  value : V
deriving DecidableEq, Repr

/-- The pair held by a node. -/
def Node.pair {K V : Type} (n : Node K V) : KeyValuePair K V := ⟨n.key, n.value⟩

/-- The state of `Cache<Key, Value>`: the map `cache_` from keys to list iterators, the
list `keys_`, the two capacity parameters, and the next free node address. -/
structure Cache (K V : Type) where
  cache_ : List (K × Nat)
  keys_ : List (Node K V)
  maxSize_ : Nat
  elasticity_ : Nat
  next_ : Nat
deriving DecidableEq, Repr

section MapAndList
variable {K V : Type} [DecidableEq K]

/-- Lookup `cache_.find(k)`: the iterator stored for `k`, or `none` for `cache_.end()`. -/
def mapFind : List (K × Nat) → K → Option Nat
  | [], _ => none
  | (k1, it) :: rest, k => if k1 = k then some it else mapFind rest k

/-- Removal `cache_.erase(k)` of the entry of key `k`, if any. -/
def mapErase (m : List (K × Nat)) (k : K) : List (K × Nat) :=
  m.filter (fun p => decide (p.1 ≠ k))

/-- Assignment `cache_[k] = it`. -/
def mapAssign (m : List (K × Nat)) (k : K) (it : Nat) : List (K × Nat) :=
  (k, it) :: mapErase m k

/-- Dereference of a list iterator: the node at address `it`, if it is in the list. -/
def deref (keys : List (Node K V)) (it : Nat) : Option (Node K V) :=
  keys.find? (fun n => decide (n.addr = it))

/-- Assignment `it->value = v` through a list iterator. -/
def setValue (keys : List (Node K V)) (it : Nat) (v : V) : Option (List (Node K V)) :=
  match deref keys it with
  | none => none
  | some _ => some (keys.map (fun n => if n.addr = it then { n with value := v } else n))

/-- Move to front `keys_.splice(keys_.begin(), keys_, it)`. -/
def splice (keys : List (Node K V)) (it : Nat) : Option (List (Node K V)) :=
  match deref keys it with
  | none => none
  | some n => some (n :: keys.filter (fun x => decide (x.addr ≠ it)))

end MapAndList

namespace Cache
variable {K V : Type} [DecidableEq K]

/-- Constructor `Cache(maxSize, elasticity)`. -/
def new (maxSize elasticity : Nat) : Cache K V :=
  { cache_ := [], keys_ := [], maxSize_ := maxSize, elasticity_ := elasticity, next_ := 0 }

/-- Number of keys, `cache_.size()`. -/
def size (c : Cache K V) : Nat := c.cache_.length

/-- Emptiness, `cache_.empty()`. -/
def empty (c : Cache K V) : Bool := c.cache_.isEmpty

/-- Reset: both containers are cleared. -/
def clear (c : Cache K V) : Cache K V :=
  { c with cache_ := [], keys_ := [] }

/-- Membership, `cache_.find(k) != cache_.end()`. -/
def contains (c : Cache K V) (k : K) : Bool := (mapFind c.cache_ k).isSome

def getMaxSize (c : Cache K V) : Nat := c.maxSize_

def getElasticity (c : Cache K V) : Nat := c.elasticity_

/-- The hard limit `maxSize_ + elasticity_`, a sum of two `size_t`. -/
def getMaxAllowedSize (c : Cache K V) : Nat := (c.maxSize_ + c.elasticity_) % SIZE_WRAP

/-- Traversal `cwalk`: the pairs visited, head to tail. -/
def cwalk (c : Cache K V) : List (KeyValuePair K V) := c.keys_.map Node.pair

/-- The loop of `prune`, with the number of evictions so far:
`while (cache_.size() > maxSize_) { cache_.erase(keys_.back().key); keys_.pop_back(); ++count; }`.
The first argument bounds the number of iterations; `prune` passes the length of `keys_`,
and every iteration pops one node, so the bound is reached only with an empty list,
where `keys_.back()` is undefined. -/
def pruneLoop : Nat → Nat → Cache K V → Option (Nat × Cache K V)
  | 0, count, c => if c.cache_.length > c.maxSize_ then none else some (count, c)
  | fuel + 1, count, c =>
    if c.cache_.length > c.maxSize_ then
      match c.keys_.getLast? with
      | none => none
      | some b =>
        pruneLoop fuel (count + 1)
          { c with cache_ := mapErase c.cache_ b.key, keys_ := c.keys_.dropLast }
    else some (count, c)

/-- Pruning step: returns the number of evicted nodes and the new state. -/
def prune (c : Cache K V) : Option (Nat × Cache K V) :=
  if c.maxSize_ = 0 ∨ c.cache_.length < c.getMaxAllowedSize then some (0, c)
  else pruneLoop c.keys_.length 0 c

/-- Insertion `insert(k, v)`. -/
def insert (c : Cache K V) (k : K) (v : V) : Option (Cache K V) :=
  match mapFind c.cache_ k with
  | some it =>
    match setValue c.keys_ it v with
    | none => none
    | some ks =>
      match splice ks it with
      | none => none
      | some ks1 => some { c with keys_ := ks1 }
  | none =>
    let c1 : Cache K V := { c with keys_ := ⟨c.next_, k, v⟩ :: c.keys_, next_ := c.next_ + 1 }
    let c2 : Cache K V := { c1 with cache_ := mapAssign c1.cache_ k c.next_ }
    (prune c2).map Prod.snd

/-- Lookup `tryGet(k)`: the optional value returned and the new state. -/
def tryGet (c : Cache K V) (k : K) : Option (Option V × Cache K V) :=
  match mapFind c.cache_ k with
  | none => some (none, c)
  | some it =>
    match splice c.keys_ it with
    | none => none
    | some ks =>
      match deref ks it with
      | none => none
      | some n => some (some n.value, { c with keys_ := ks })

/-- Lookup `get(k)`: the value returned or the exception thrown, and the new state. -/
def get (c : Cache K V) (k : K) : Option (Except KeyNotFound V × Cache K V) :=
  match mapFind c.cache_ k with
  | none => some (Except.error KeyNotFound.key_not_found, c)
  | some it =>
    match splice c.keys_ it with
    | none => none
    | some ks =>
      match deref ks it with
      | none => none
      | some n => some (Except.ok n.value, { c with keys_ := ks })

/-- Lookup `getCopy(k)`, which returns `get(k)`. -/
def getCopy (c : Cache K V) (k : K) : Option (Except KeyNotFound V × Cache K V) :=
  c.get k

/-- Removal `remove(k)`: only the map entry is erased (the list erase is commented out
in the source). -/
def remove (c : Cache K V) (k : K) : Bool × Cache K V :=
  match mapFind c.cache_ k with
  | none => (false, c)
  | some _ => (true, { c with cache_ := mapErase c.cache_ k })

end Cache

/-- The public operations of `Cache`, as calls with their arguments. -/
inductive Op (K V : Type) where
  | insert (k : K) (v : V)
  | tryGet (k : K)
  | get (k : K)
  | getCopy (k : K)
  | remove (k : K)
  | contains (k : K)
  | clear
  | size
  | empty
  | cwalk
deriving DecidableEq, Repr

/-- Whether the call is a call of `remove`. -/
def Op.isRemove {K V : Type} : Op K V → Bool
  | Op.remove _ => true
  | _ => false

/-- Whether the call is one of `insert`, `tryGet`, `get`, `contains`. -/
def Op.isInsertOrLookup {K V : Type} : Op K V → Bool
  | Op.insert _ _ => true
  | Op.tryGet _ => true
  | Op.get _ => true
  | Op.contains _ => true
  | _ => false

section Runs
variable {K V : Type} [DecidableEq K]

/-- The value that the call inserts for key `k`, if the call is an `insert` of `k`. -/
def Op.inserts (op : Op K V) (k : K) : Option V :=
  match op with
  | Op.insert k1 v => if k1 = k then some v else none
  | _ => none

/-- The value of the last `insert` of key `k` in a sequence of calls, if there is one. -/
def lastInserted : List (Op K V) → K → Option V
  | [], _ => none
  | op :: ops, k =>
    match lastInserted ops k with
    | some v => some v
    | none => op.inserts k

/-- The keys of the `insert` calls of a sequence of calls, in order, with repetitions. -/
def insertedKeys : List (Op K V) → List K
  | [] => []
  | Op.insert k _ :: ops => k :: insertedKeys ops
  | _ :: ops => insertedKeys ops

/-- The value stored for a key, read without promotion: the value of the node that the
map entry of the key points to. -/
def Cache.peek (c : Cache K V) (k : K) : Option V :=
  match mapFind c.cache_ k with
  | none => none
  | some it => (deref c.keys_ it).map Node.value

/-- The state after one call (`none` when the call has undefined behaviour). -/
def step (c : Cache K V) : Op K V → Option (Cache K V)
  | Op.insert k v => c.insert k v
  | Op.tryGet k => (c.tryGet k).map Prod.snd
  | Op.get k => (c.get k).map Prod.snd
  | Op.getCopy k => (c.getCopy k).map Prod.snd
  | Op.remove k => some (c.remove k).2
  | Op.contains _ => some c
  | Op.clear => some c.clear
  | Op.size => some c
  | Op.empty => some c
  | Op.cwalk => some c

/-- The state after a sequence of calls. -/
def run (c : Cache K V) : List (Op K V) → Option (Cache K V)
  | [] => some c
  | op :: ops => (step c op).bind (fun c1 => run c1 ops)

/-- States reachable from a newly constructed cache by the public operations. -/
def Reachable (c : Cache K V) : Prop :=
  ∃ (m e : Nat) (ops : List (Op K V)), run (Cache.new m e) ops = some c

/-- States reachable from a newly constructed cache without any call of `remove`. -/
def ReachableNoRemove (c : Cache K V) : Prop :=
  ∃ (m e : Nat) (ops : List (Op K V)),
    (∀ op ∈ ops, op.isRemove = false) ∧ run (Cache.new m e) ops = some c

/-- The calls `insert(k, v)` for the pairs of a list, in order. -/
def insertOps (kvs : List (K × V)) : List (Op K V) :=
  kvs.map (fun p => Op.insert p.1 p.2)

end Runs

/-- The number of keys after the insertion of a new key into a cache of `s` keys with
soft limit `m` and hard limit `M`: `s + 1` when `prune` returns at once, and otherwise
what the loop of `prune` leaves of `s + 1`. -/
def sizeAfterInsert (m M s : Nat) : Nat :=
  if m = 0 ∨ s + 1 < M then s + 1 else min (s + 1) m

section Invariants
variable {K V : Type} [DecidableEq K]

/-- Well-formedness of a state: the nodes of `keys_` have distinct addresses, all below
the next free address; `cache_` holds at most one entry per key; and every entry of
`cache_` holds an iterator to a node of `keys_` that carries the key of the entry. -/
structure Inv (c : Cache K V) : Prop where
  addr_nodup : (c.keys_.map Node.addr).Nodup
  addr_lt : ∀ n ∈ c.keys_, n.addr < c.next_
  keys_nodup : (c.cache_.map Prod.fst).Nodup
  index_ok : ∀ p ∈ c.cache_, ∃ n ∈ c.keys_, n.addr = p.2 ∧ n.key = p.1

/-- The bijection between `cache_` and `keys_`: the state is well-formed, the nodes of
`keys_` carry distinct keys, and every node is the one its key is mapped to. -/
structure Bij (c : Cache K V) : Prop where
  inv : Inv c
  key_nodup : (c.keys_.map Node.key).Nodup
  node_indexed : ∀ n ∈ c.keys_, (n.key, n.addr) ∈ c.cache_

/-- The size bound kept by a bounded cache: at most `maxSize_` keys, or fewer than the hard
limit. -/
def SizeBound (c : Cache K V) : Prop :=
  c.size ≤ c.maxSize_ ∨ c.size < c.getMaxAllowedSize

end Invariants

/-! ## The TTL wrapper of `TimedLRUCache17.hpp`

`TimedCache` owns one `Cache` whose values are pairs of a value and the time point of its
insertion.  Every member function that reads `Clock::now()` takes the time point read as
an argument.  `Clock` is `std::chrono::steady_clock`, whose time points count nanoseconds
in a 64-bit integer, and `Duration` is the default `std::chrono::duration<double, std::milli>`.

The comparison `Clock::now() - time > timeToLive_` is made in the common type of its two
sides, `duration<double, nano>`: the elapsed nanoseconds are converted to `double`, and so
is the time to live, in nanoseconds.  The embedding keeps the time to live as the whole
number of nanoseconds it stands for (100 ms is 100000000) and converts both sides with
`roundToDouble`, the conversion of an integer to the nearest `double`.

The member function `contains` is not embedded: it returns `timeToLive(k)`, and the sources
declare no function of that name. -/

/-- Rounding of `n` to a multiple of `p`: the nearest one, and of two nearest ones the one
whose quotient by `p` is even. -/
def roundMult (p n : Nat) : Nat :=
  if 2 * (n % p) < p then n / p * p
  else if p < 2 * (n % p) then n / p * p + p
  else if (n / p) % 2 = 0 then n / p * p
  else n / p * p + p

/-- The binary exponent of the last place of the `double` nearest to `n`: the least `k`,
from `k` on, with `n < 2 ^ (53 + k)`.  The first argument bounds the search; `n` itself
is enough, since `n < 2 ^ (53 + n)`. -/
def doubleExp : Nat → Nat → Nat → Nat
  | 0, k, _ => k
  | fuel + 1, k, n => if n < 2 ^ (53 + k) then k else doubleExp fuel (k + 1) n

/-- Conversion of a natural number to `double`: a number below `2 ^ 53` is kept, a larger
one is rounded to 53 significant bits, to nearest and to even on a tie. -/
def roundNat (n : Nat) : Nat := roundMult (2 ^ doubleExp n 0 n) n

/-- Conversion `static_cast<double>` of an integer, which is symmetric about zero. -/
def roundToDouble (x : Int) : Int :=
  if x < 0 then -(roundNat x.natAbs : Int) else (roundNat x.natAbs : Int)

/-- The state of `TimedCache<Key, Value>`: the inner cache and the time to live, in
nanoseconds. -/
structure TimedCache (K V : Type) where
  cache_ : Cache K (V × Int)
  timeToLive_ : Int
deriving DecidableEq, Repr

namespace TimedCache
variable {K V : Type} [DecidableEq K]

/-- Constructor `TimedCache(timeToLive, maxSize, elasticity)`. -/
def new (timeToLive : Int) (maxSize elasticity : Nat) : TimedCache K V :=
  { cache_ := Cache.new maxSize elasticity, timeToLive_ := timeToLive }

def clear (tc : TimedCache K V) : TimedCache K V :=
  { tc with cache_ := tc.cache_.clear }

def empty (tc : TimedCache K V) : Bool := tc.cache_.empty

def size (tc : TimedCache K V) : Nat := tc.cache_.size

def cwalk (tc : TimedCache K V) : List (KeyValuePair K (V × Int)) := tc.cache_.cwalk

def getMaxSize (tc : TimedCache K V) : Nat := tc.cache_.getMaxSize

def getElasticity (tc : TimedCache K V) : Nat := tc.cache_.getElasticity

def getMaxAllowedSize (tc : TimedCache K V) : Nat := tc.cache_.getMaxAllowedSize

/-- Removal `remove(k)`, which returns `cache_.remove(k)`. -/
def remove (tc : TimedCache K V) (k : K) : Bool × TimedCache K V :=
  ((tc.cache_.remove k).1, { tc with cache_ := (tc.cache_.remove k).2 })

/-- Insertion `insert(k, v)` at time `now`: `cache_.insert(k, {v, Clock::now()})`. -/
def insert (tc : TimedCache K V) (now : Int) (k : K) (v : V) : Option (TimedCache K V) :=
  (tc.cache_.insert k (v, now)).map (fun c => { tc with cache_ := c })

/-- Lookup `tryGet(k)` at time `now`; the test is `Clock::now() - time > timeToLive_`. -/
def tryGet (tc : TimedCache K V) (now : Int) (k : K) : Option (Option V × TimedCache K V) :=
  match tc.cache_.tryGet k with
  | none => none
  | some (none, c1) => some (none, { tc with cache_ := c1 })
  | some (some (v, time), c1) =>
    if roundToDouble (now - time) > roundToDouble tc.timeToLive_ then
      some (none, (TimedCache.remove { tc with cache_ := c1 } k).2)
    else some (some v, { tc with cache_ := c1 })

end TimedCache

section TimedRuns
variable {K V : Type} [DecidableEq K]

end TimedRuns

/-! ## Concrete states -/

/-- `Cache(1, 0)` after `insert(1, 10)`, `remove(1)`, `insert(2, 20)`. -/
def exRemoved : Cache Nat Nat :=
  { cache_ := [(2, 1)], keys_ := [⟨1, 2, 20⟩, ⟨0, 1, 10⟩], maxSize_ := 1, elasticity_ := 0,
    next_ := 2 }

/-- `Cache(5, SIZE_MAX)` after the insertion of the keys 1, 2 and 3. -/
def exWrapThree : Cache Nat Nat :=
  { cache_ := [(3, 2), (2, 1), (1, 0)], keys_ := [⟨2, 3, 30⟩, ⟨1, 2, 20⟩, ⟨0, 1, 10⟩],
    maxSize_ := 5, elasticity_ := 2 ^ 64 - 1, next_ := 3 }

/-- `Cache(5, SIZE_MAX)` after the insertion of the keys 1 to 5. -/
def exWrapFive : Cache Nat Nat :=
  { cache_ := [(5, 4), (4, 3), (3, 2), (2, 1), (1, 0)],
    keys_ := [⟨4, 5, 50⟩, ⟨3, 4, 40⟩, ⟨2, 3, 30⟩, ⟨1, 2, 20⟩, ⟨0, 1, 10⟩],
    maxSize_ := 5, elasticity_ := 2 ^ 64 - 1, next_ := 5 }

/-- `Cache(2, 0)` after `insert(1, 10)`, `insert(2, 20)`. -/
def exTwo : Cache Nat Nat :=
  { cache_ := [(2, 1), (1, 0)], keys_ := [⟨1, 2, 20⟩, ⟨0, 1, 10⟩], maxSize_ := 2,
    elasticity_ := 0, next_ := 2 }

set_option linter.unusedSectionVars false

/-! ## The map `cache_` -/

section MapLemmas
variable {K V : Type} [DecidableEq K]

theorem mapFind_eq_none_iff (m : List (K × Nat)) (k : K) :
    mapFind m k = none ↔ k ∉ m.map Prod.fst := by
  induction m with
  | nil => simp [mapFind]
  | cons p rest ih =>
    obtain ⟨k1, it⟩ := p
    by_cases h : k1 = k
    · simp [mapFind, h]
    · have h2 : ¬ k = k1 := fun e => h e.symm
      simp [mapFind, h, h2, ih]

theorem mapFind_mem {m : List (K × Nat)} {k : K} {it : Nat}
    (h : mapFind m k = some it) : (k, it) ∈ m := by
  induction m with
  | nil => simp [mapFind] at h
  | cons p rest ih =>
    obtain ⟨k1, it1⟩ := p
    by_cases hk : k1 = k
    · simp [mapFind, hk] at h
      simp [hk, h]
    · simp [mapFind, hk] at h
      exact List.mem_cons_of_mem _ (ih h)

theorem mapFind_of_mem {m : List (K × Nat)} (hnd : (m.map Prod.fst).Nodup) {k : K} {it : Nat}
    (h : (k, it) ∈ m) : mapFind m k = some it := by
  induction m with
  | nil => simp at h
  | cons p rest ih =>
    obtain ⟨k1, it1⟩ := p
    simp only [List.map_cons, List.nodup_cons] at hnd
    rcases List.mem_cons.1 h with h1 | h1
    · cases h1
      simp [mapFind]
    · have hk : k1 ≠ k := by
        intro e
        subst e
        exact hnd.1 (List.mem_map.2 ⟨(k1, it), h1, rfl⟩)
      simp [mapFind, hk, ih hnd.2 h1]

theorem mapFind_isSome_iff (m : List (K × Nat)) (k : K) :
    (mapFind m k).isSome = true ↔ k ∈ m.map Prod.fst := by
  rw [← not_iff_not, ← mapFind_eq_none_iff]
  cases mapFind m k <;> simp

theorem mapErase_mem (m : List (K × Nat)) (k : K) (p : K × Nat) :
    p ∈ mapErase m k ↔ p ∈ m ∧ p.1 ≠ k := by
  simp [mapErase]

theorem mapErase_of_not_mem {m : List (K × Nat)} {k : K} (h : k ∉ m.map Prod.fst) :
    mapErase m k = m := by
  unfold mapErase
  rw [List.filter_eq_self]
  intro p hp
  have : p.1 ≠ k := fun e => h (List.mem_map.2 ⟨p, hp, e⟩)
  simpa using this

theorem mapErase_keys_nodup {m : List (K × Nat)} (k : K) (hnd : (m.map Prod.fst).Nodup) :
    ((mapErase m k).map Prod.fst).Nodup :=
  hnd.sublist (List.Sublist.map _ (List.filter_sublist _))

theorem mapErase_length_le (m : List (K × Nat)) (k : K) :
    (mapErase m k).length ≤ m.length :=
  List.length_filter_le _ _

theorem mapErase_length_of_mem {m : List (K × Nat)} (hnd : (m.map Prod.fst).Nodup) {k : K}
    (h : k ∈ m.map Prod.fst) : (mapErase m k).length + 1 = m.length := by
  induction m with
  | nil => simp at h
  | cons p rest ih =>
    obtain ⟨k1, it1⟩ := p
    simp only [List.map_cons, List.nodup_cons] at hnd
    by_cases hk : k1 = k
    · subst hk
      have : mapErase ((k1, it1) :: rest) k1 = rest := by
        have h2 := mapErase_of_not_mem hnd.1
        simp [mapErase] at h2 ⊢
        exact h2
      simp [this]
    · have hmem : k ∈ rest.map Prod.fst := by
        simp only [List.map_cons, List.mem_cons] at h
        rcases h with h | h
        · exact absurd h.symm hk
        · exact h
      have := ih hnd.2 hmem
      simp [mapErase, hk] at this ⊢
      exact this

theorem mapFind_mapErase (m : List (K × Nat)) (k k1 : K) :
    mapFind (mapErase m k) k1 = if k1 = k then none else mapFind m k1 := by
  induction m with
  | nil => simp [mapErase, mapFind]
  | cons p rest ih =>
    obtain ⟨k2, it2⟩ := p
    by_cases h2 : k2 = k
    · subst h2
      have : mapErase ((k2, it2) :: rest) k2 = mapErase rest k2 := by simp [mapErase]
      rw [this, ih]
      by_cases h1 : k1 = k2
      · simp [h1]
      · have h3 : ¬ k2 = k1 := fun e => h1 e.symm
        simp [h1, mapFind, h3]
    · have : mapErase ((k2, it2) :: rest) k = (k2, it2) :: mapErase rest k := by
        simp [mapErase, h2]
      rw [this]
      by_cases h1 : k2 = k1
      · subst h1
        simp [mapFind, h2]
      · simp [mapFind, h1, ih]

end MapLemmas

/-! ## The list `keys_` -/

section ListLemmas
variable {K V : Type} [DecidableEq K]

theorem deref_some {keys : List (Node K V)} {it : Nat} {n : Node K V}
    (h : deref keys it = some n) : n ∈ keys ∧ n.addr = it := by
  unfold deref at h
  refine ⟨List.mem_of_find?_eq_some h, ?_⟩
  simpa using List.find?_some h

theorem deref_of_mem {keys : List (Node K V)} (hnd : (keys.map Node.addr).Nodup)
    {n : Node K V} (h : n ∈ keys) : deref keys n.addr = some n := by
  induction keys with
  | nil => simp at h
  | cons x rest ih =>
    simp only [List.map_cons, List.nodup_cons] at hnd
    rcases List.mem_cons.1 h with h1 | h1
    · subst h1
      simp [deref]
    · have hx : x.addr ≠ n.addr := by
        intro e
        exact hnd.1 (e ▸ List.mem_map.2 ⟨n, h1, rfl⟩)
      have := ih hnd.2 h1
      simp only [deref] at this ⊢
      simp [List.find?_cons, hx, this]

theorem filter_addr_perm {keys : List (Node K V)} (hnd : (keys.map Node.addr).Nodup)
    {n : Node K V} (h : n ∈ keys) :
    (n :: keys.filter (fun x => decide (x.addr ≠ n.addr))).Perm keys := by
  induction keys with
  | nil => simp at h
  | cons x rest ih =>
    simp only [List.map_cons, List.nodup_cons] at hnd
    rcases List.mem_cons.1 h with h1 | h1
    · subst h1
      have : rest.filter (fun x => decide (x.addr ≠ n.addr)) = rest := by
        rw [List.filter_eq_self]
        intro y hy
        have : y.addr ≠ n.addr := fun e => hnd.1 (e ▸ List.mem_map.2 ⟨y, hy, rfl⟩)
        simpa using this
      rw [List.filter_cons_of_neg (by simp), this]
    · have hx : x.addr ≠ n.addr := by
        intro e
        exact hnd.1 (e ▸ List.mem_map.2 ⟨n, h1, rfl⟩)
      have h2 := ih hnd.2 h1
      simp only [List.filter_cons, hx, ne_eq, not_false_eq_true, decide_True, ite_true]
      exact (List.Perm.swap x n _).trans (List.Perm.cons x h2)

theorem splice_spec {keys : List (Node K V)} (hnd : (keys.map Node.addr).Nodup)
    {n : Node K V} (h : n ∈ keys) :
    ∃ rest, splice keys n.addr = some (n :: rest) ∧ (n :: rest).Perm keys ∧
      rest = keys.filter (fun x => decide (x.addr ≠ n.addr)) := by
  refine ⟨_, ?_, filter_addr_perm hnd h, rfl⟩
  simp [splice, deref_of_mem hnd h]

theorem mem_dropLast_of_ne {α : Type} {l : List α} {b x : α} (hb : l.getLast? = some b)
    (hx : x ∈ l) (hne : x ≠ b) : x ∈ l.dropLast := by
  have h := List.dropLast_append_getLast? b hb
  rw [← h] at hx
  rcases List.mem_append.1 hx with h1 | h1
  · exact h1
  · simp at h1
    exact absurd h1 hne

end ListLemmas

/-! ## Well-formedness is preserved by every operation -/

section InvLemmas
variable {K V : Type} [DecidableEq K]

theorem inv_new (m e : Nat) : Inv (Cache.new m e : Cache K V) := by
  constructor <;> simp [Cache.new]

theorem bij_new (m e : Nat) : Bij (Cache.new m e : Cache K V) := by
  refine ⟨inv_new m e, ?_, ?_⟩ <;> simp [Cache.new]

theorem inv_clear (c : Cache K V) : Inv c.clear := by
  constructor <;> simp [Cache.clear]

theorem bij_clear (c : Cache K V) : Bij c.clear := by
  refine ⟨inv_clear c, ?_, ?_⟩ <;> simp [Cache.clear]

theorem Inv.length_le {c : Cache K V} (h : Inv c) : c.cache_.length ≤ c.keys_.length := by
  have hsub : c.cache_.map Prod.fst ⊆ c.keys_.map Node.key := by
    intro k hk
    obtain ⟨p, hp, rfl⟩ := List.mem_map.1 hk
    obtain ⟨n, hn, _, hkey⟩ := h.index_ok p hp
    exact List.mem_map.2 ⟨n, hn, hkey⟩
  have := (List.subperm_of_subset h.keys_nodup hsub).length_le
  simpa using this

theorem Bij.length_eq {c : Cache K V} (h : Bij c) : c.cache_.length = c.keys_.length := by
  apply Nat.le_antisymm h.inv.length_le
  have hsub : c.keys_.map Node.key ⊆ c.cache_.map Prod.fst := by
    intro k hk
    obtain ⟨n, hn, rfl⟩ := List.mem_map.1 hk
    exact List.mem_map.2 ⟨_, h.node_indexed n hn, rfl⟩
  have := (List.subperm_of_subset h.key_nodup hsub).length_le
  simpa using this

theorem Inv.lookup {c : Cache K V} (h : Inv c) {k : K} {it : Nat}
    (hf : mapFind c.cache_ k = some it) :
    ∃ n, n ∈ c.keys_ ∧ n.addr = it ∧ n.key = k := by
  obtain ⟨n, hn, ha, hk⟩ := h.index_ok _ (mapFind_mem hf)
  exact ⟨n, hn, ha, hk⟩

theorem Inv.remove {c : Cache K V} (h : Inv c) (k : K) : Inv (c.remove k).2 := by
  unfold Cache.remove
  cases hf : mapFind c.cache_ k with
  | none => exact h
  | some it =>
    refine ⟨h.addr_nodup, h.addr_lt, mapErase_keys_nodup k h.keys_nodup, ?_⟩
    intro p hp
    exact h.index_ok p ((mapErase_mem _ _ _).1 hp).1

/-- The list obtained by moving node `n` to the front with value `v`. -/
theorem promote_perm_addr {keys : List (Node K V)} (hnd : (keys.map Node.addr).Nodup)
    {n : Node K V} (hn : n ∈ keys) (v : V) :
    ((({ n with value := v } : Node K V) ::
      keys.filter (fun x => decide (x.addr ≠ n.addr))).map Node.addr).Perm (keys.map Node.addr) :=
  (filter_addr_perm hnd hn).map Node.addr

theorem promote_perm_key {keys : List (Node K V)} (hnd : (keys.map Node.addr).Nodup)
    {n : Node K V} (hn : n ∈ keys) (v : V) :
    ((({ n with value := v } : Node K V) ::
      keys.filter (fun x => decide (x.addr ≠ n.addr))).map Node.key).Perm (keys.map Node.key) :=
  (filter_addr_perm hnd hn).map Node.key

theorem addr_inj {keys : List (Node K V)} (hnd : (keys.map Node.addr).Nodup)
    {n x : Node K V} (hn : n ∈ keys) (hx : x ∈ keys) (h : x.addr = n.addr) : x = n := by
  have h1 := deref_of_mem hnd hn
  have h2 := deref_of_mem hnd hx
  rw [h] at h2
  exact Option.some.inj (h2.symm.trans h1)

theorem Inv.promote_inv {c : Cache K V} (h : Inv c) {n : Node K V} (hn : n ∈ c.keys_) (v : V) :
    Inv { c with keys_ := { n with value := v } ::
      c.keys_.filter (fun x => decide (x.addr ≠ n.addr)) } := by
  refine ⟨?_, ?_, h.keys_nodup, ?_⟩
  · exact (promote_perm_addr h.addr_nodup hn v).nodup_iff.2 h.addr_nodup
  · intro x hx
    rcases List.mem_cons.1 hx with h1 | h1
    · subst h1
      exact h.addr_lt n hn
    · exact h.addr_lt x (List.mem_filter.1 h1).1
  · intro p hp
    obtain ⟨x, hx, ha, hk⟩ := h.index_ok p hp
    by_cases e : x.addr = n.addr
    · have := addr_inj h.addr_nodup hn hx e
      subst this
      exact ⟨{ x with value := v }, List.mem_cons_self _ _, ha, hk⟩
    · refine ⟨x, List.mem_cons_of_mem _ (List.mem_filter.2 ⟨hx, ?_⟩), ha, hk⟩
      simpa using e

theorem Bij.promote_bij {c : Cache K V} (h : Bij c) {n : Node K V} (hn : n ∈ c.keys_) (v : V) :
    Bij { c with keys_ := { n with value := v } ::
      c.keys_.filter (fun x => decide (x.addr ≠ n.addr)) } := by
  refine ⟨h.inv.promote_inv hn v, ?_, ?_⟩
  · exact (promote_perm_key h.inv.addr_nodup hn v).nodup_iff.2 h.key_nodup
  · intro x hx
    rcases List.mem_cons.1 hx with h1 | h1
    · subst h1
      exact h.node_indexed n hn
    · exact h.node_indexed x (List.mem_filter.1 h1).1

/-- A hit of `tryGet`: the node of the key moves to the front and its value is returned. -/
theorem tryGet_hit {c : Cache K V} (h : Inv c) {k : K} {it : Nat}
    (hf : mapFind c.cache_ k = some it) :
    ∃ n, n ∈ c.keys_ ∧ n.addr = it ∧ n.key = k ∧
      c.tryGet k = some (some n.value,
        { c with keys_ := n :: c.keys_.filter (fun x => decide (x.addr ≠ n.addr)) }) := by
  obtain ⟨n, hn, ha, hk⟩ := h.lookup hf
  refine ⟨n, hn, ha, hk, ?_⟩
  subst ha
  have hd := deref_of_mem h.addr_nodup hn
  have hd2 : deref (n :: c.keys_.filter (fun x => decide (x.addr ≠ n.addr))) n.addr = some n := by
    simp [deref]
  simp only [Cache.tryGet, hf, splice, hd, hd2]

theorem tryGet_miss {c : Cache K V} {k : K} (hf : mapFind c.cache_ k = none) :
    c.tryGet k = some (none, c) := by
  simp [Cache.tryGet, hf]

/-- A hit of `get`. -/
theorem get_hit {c : Cache K V} (h : Inv c) {k : K} {it : Nat}
    (hf : mapFind c.cache_ k = some it) :
    ∃ n, n ∈ c.keys_ ∧ n.addr = it ∧ n.key = k ∧
      c.get k = some (Except.ok n.value,
        { c with keys_ := n :: c.keys_.filter (fun x => decide (x.addr ≠ n.addr)) }) := by
  obtain ⟨n, hn, ha, hk⟩ := h.lookup hf
  refine ⟨n, hn, ha, hk, ?_⟩
  subst ha
  have hd := deref_of_mem h.addr_nodup hn
  have hd2 : deref (n :: c.keys_.filter (fun x => decide (x.addr ≠ n.addr))) n.addr = some n := by
    simp [deref]
  simp only [Cache.get, hf, splice, hd, hd2]

theorem get_miss {c : Cache K V} {k : K} (hf : mapFind c.cache_ k = none) :
    c.get k = some (Except.error KeyNotFound.key_not_found, c) := by
  simp [Cache.get, hf]

/-- Insertion of a key that is in the map: its node takes the new value and moves to the
front; the map is not touched. -/
theorem insert_hit {c : Cache K V} (h : Inv c) {k : K} {it : Nat}
    (hf : mapFind c.cache_ k = some it) (v : V) :
    ∃ n, n ∈ c.keys_ ∧ n.addr = it ∧ n.key = k ∧
      c.insert k v = some
        { c with keys_ := { n with value := v } ::
          c.keys_.filter (fun x => decide (x.addr ≠ n.addr)) } := by
  obtain ⟨n, hn, ha, hk⟩ := h.lookup hf
  refine ⟨n, hn, ha, hk, ?_⟩
  subst ha
  have hmem : ({ n with value := v } : Node K V) ∈
      c.keys_.map (fun x => if x.addr = n.addr then { x with value := v } else x) :=
    List.mem_map.2 ⟨n, hn, by simp⟩
  have haddr : (c.keys_.map (fun x => if x.addr = n.addr then { x with value := v } else x)).map
      Node.addr = c.keys_.map Node.addr := by
    rw [List.map_map]
    apply List.map_congr_left
    intro x _
    by_cases e : x.addr = n.addr <;> simp [e]
  have hd := deref_of_mem (haddr ▸ h.addr_nodup) hmem
  have hfilter : (c.keys_.map (fun x => if x.addr = n.addr then { x with value := v } else x)).filter
      (fun x => decide (x.addr ≠ n.addr)) = c.keys_.filter (fun x => decide (x.addr ≠ n.addr)) := by
    generalize c.keys_ = l
    induction l with
    | nil => rfl
    | cons x rest ih =>
      by_cases e : x.addr = n.addr
      · simp [e] at ih ⊢
        exact ih
      · simp [e] at ih ⊢
        exact ih
  simp only [Cache.insert, hf, setValue, deref_of_mem h.addr_nodup hn, splice]
  simp only [] at hd
  rw [hd]
  simp only [hfilter]

end InvLemmas

/-! ## The pruning step -/

section PruneLemmas
variable {K V : Type} [DecidableEq K]

theorem mapErase_length_ge {m : List (K × Nat)} (hnd : (m.map Prod.fst).Nodup) (k : K) :
    m.length ≤ (mapErase m k).length + 1 := by
  by_cases h : k ∈ m.map Prod.fst
  · rw [mapErase_length_of_mem hnd h]
  · rw [mapErase_of_not_mem h]
    omega

/-- One iteration of the loop of `prune` keeps the state well-formed. -/
theorem Inv.evict_inv {c : Cache K V} (h : Inv c) {b : Node K V} (hb : c.keys_.getLast? = some b) :
    Inv { c with cache_ := mapErase c.cache_ b.key, keys_ := c.keys_.dropLast } := by
  refine ⟨?_, ?_, mapErase_keys_nodup _ h.keys_nodup, ?_⟩
  · exact h.addr_nodup.sublist (List.Sublist.map _ (List.dropLast_sublist _))
  · intro n hn
    exact h.addr_lt n ((List.dropLast_sublist _).subset hn)
  · intro p hp
    obtain ⟨hp1, hp2⟩ := (mapErase_mem _ _ _).1 hp
    obtain ⟨n, hn, ha, hk⟩ := h.index_ok p hp1
    refine ⟨n, mem_dropLast_of_ne hb hn ?_, ha, hk⟩
    intro e
    subst e
    exact hp2 hk.symm

/-- One iteration of the loop of `prune` keeps the bijection. -/
theorem Bij.evict_bij {c : Cache K V} (h : Bij c) {b : Node K V} (hb : c.keys_.getLast? = some b) :
    Bij { c with cache_ := mapErase c.cache_ b.key, keys_ := c.keys_.dropLast } := by
  refine ⟨h.inv.evict_inv hb, ?_, ?_⟩
  · exact h.key_nodup.sublist (List.Sublist.map _ (List.dropLast_sublist _))
  · intro n hn
    have hsplit := List.dropLast_append_getLast? b hb
    have hnd := h.key_nodup
    rw [← hsplit, List.map_append, List.nodup_append] at hnd
    have hne : n.key ≠ b.key := by
      intro e
      exact hnd.2.2 (List.mem_map.2 ⟨n, hn, rfl⟩) (by simp [e])
    exact (mapErase_mem _ _ _).2
      ⟨h.node_indexed n ((List.dropLast_sublist _).subset hn), hne⟩

/-- The loop of `prune`, run on a well-formed state with the length of `keys_` as bound,
never meets an empty list: it ends with exactly `min size maxSize` keys in the map, after
popping a tail segment of `keys_`. -/
theorem pruneLoop_spec : ∀ (fuel count : Nat) (c : Cache K V), Inv c →
    fuel = c.keys_.length →
    ∃ cnt c1, Cache.pruneLoop fuel count c = some (cnt, c1) ∧ Inv c1 ∧
      c1.maxSize_ = c.maxSize_ ∧ c1.elasticity_ = c.elasticity_ ∧ c1.next_ = c.next_ ∧
      c1.cache_.length = min c.cache_.length c.maxSize_ ∧
      (∃ j, c1.keys_ = c.keys_.take j) ∧
      c1.cache_.Sublist c.cache_ ∧
      (Bij c → Bij c1) ∧ cnt ≤ count + c.keys_.length := by
  intro fuel
  induction fuel with
  | zero =>
    intro count c h hf
    have hle := h.length_le
    have hnil : c.keys_ = [] := List.length_eq_zero.1 hf.symm
    have h0 : c.cache_.length = 0 := by
      rw [hnil] at hle
      simpa using hle
    refine ⟨count, c, ?_, h, rfl, rfl, rfl, ?_, ⟨0, by simp [hnil]⟩, List.Sublist.refl _,
      id, by omega⟩
    · simp [Cache.pruneLoop, h0]
    · simp [h0]
  | succ fuel ih =>
    intro count c h hf
    by_cases hgt : c.cache_.length > c.maxSize_
    · cases hb : c.keys_.getLast? with
      | none =>
        rw [List.getLast?_eq_none_iff] at hb
        rw [hb] at hf
        simp at hf
      | some b =>
        have hlen : fuel = (c.keys_.dropLast).length := by
          rw [List.length_dropLast]
          omega
        obtain ⟨cnt, c1, hrun, hinv, hm, he, hn, hsize, ⟨j, hj⟩, hsub, hbij, hcnt⟩ :=
          ih (count + 1)
            { c with cache_ := mapErase c.cache_ b.key, keys_ := c.keys_.dropLast }
            (h.evict_inv hb) hlen
        refine ⟨cnt, c1, ?_, hinv, hm, he, hn, ?_, ⟨min j (c.keys_.length - 1), ?_⟩,
          hsub.trans (List.filter_sublist _), fun hB => hbij (hB.evict_bij hb), ?_⟩
        · simp only [Cache.pruneLoop, hgt, if_true, hb]
          exact hrun
        · have hge := mapErase_length_ge h.keys_nodup b.key
          simp only [] at hsize
          rw [hsize]
          omega
        · rw [hj]
          simp only []
          rw [List.dropLast_eq_take, List.take_take]
        · simp only [] at hcnt
          rw [← hlen] at hcnt
          omega
    · refine ⟨count, c, ?_, h, rfl, rfl, rfl, ?_, ⟨c.keys_.length, by simp⟩,
        List.Sublist.refl _, id, by omega⟩
      · simp [Cache.pruneLoop, hgt]
      · omega

/-- The pruning step never fails on a well-formed state. -/
theorem prune_spec (c : Cache K V) (h : Inv c) :
    ∃ cnt c1, c.prune = some (cnt, c1) ∧ Inv c1 ∧
      c1.maxSize_ = c.maxSize_ ∧ c1.elasticity_ = c.elasticity_ ∧ c1.next_ = c.next_ ∧
      (∃ j, c1.keys_ = c.keys_.take j) ∧
      c1.cache_.Sublist c.cache_ ∧
      (Bij c → Bij c1) ∧ cnt ≤ c.keys_.length ∧
      ((c.maxSize_ = 0 ∨ c.cache_.length < c.getMaxAllowedSize) → c1 = c) ∧
      (¬ (c.maxSize_ = 0 ∨ c.cache_.length < c.getMaxAllowedSize) →
        c1.cache_.length = min c.cache_.length c.maxSize_) := by
  by_cases hc : c.maxSize_ = 0 ∨ c.cache_.length < c.getMaxAllowedSize
  · refine ⟨0, c, ?_, h, rfl, rfl, rfl, ⟨c.keys_.length, by simp⟩, List.Sublist.refl _, id,
      Nat.zero_le _, fun _ => rfl, fun hn => absurd hc hn⟩
    simp [Cache.prune, hc]
  · obtain ⟨cnt, c1, hrun, hinv, hm, he, hn, hsize, hj, hsub, hbij, hcnt⟩ :=
      pruneLoop_spec c.keys_.length 0 c h rfl
    refine ⟨cnt, c1, ?_, hinv, hm, he, hn, hj, hsub, hbij, by omega,
      fun hp => absurd hp hc, fun _ => hsize⟩
    simp only [Cache.prune, hc, if_false]
    exact hrun

/-- Insertion of a key that is not in the map: a node is put at the front of the list,
the map is given its address, and the pruning step runs. -/
theorem insert_miss_eq {c : Cache K V} {k : K} (hf : mapFind c.cache_ k = none) (v : V) :
    c.insert k v = (Cache.prune
      { cache_ := (k, c.next_) :: c.cache_, keys_ := ⟨c.next_, k, v⟩ :: c.keys_,
        maxSize_ := c.maxSize_, elasticity_ := c.elasticity_, next_ := c.next_ + 1 }).map
      Prod.snd := by
  have := mapErase_of_not_mem ((mapFind_eq_none_iff _ _).1 hf)
  simp only [Cache.insert, hf, mapAssign, this]

theorem Inv.emplace_inv {c : Cache K V} (h : Inv c) {k : K} (hf : mapFind c.cache_ k = none)
    (v : V) :
    Inv { cache_ := (k, c.next_) :: c.cache_, keys_ := ⟨c.next_, k, v⟩ :: c.keys_,
          maxSize_ := c.maxSize_, elasticity_ := c.elasticity_, next_ := c.next_ + 1 } := by
  refine ⟨?_, ?_, ?_, ?_⟩
  · simp only [List.map_cons, List.nodup_cons]
    refine ⟨?_, h.addr_nodup⟩
    intro hmem
    obtain ⟨n, hn, e⟩ := List.mem_map.1 hmem
    have := h.addr_lt n hn
    omega
  · intro n hn
    rcases List.mem_cons.1 hn with h1 | h1
    · subst h1
      exact Nat.lt_succ_self _
    · exact Nat.lt_succ_of_lt (h.addr_lt n h1)
  · simp only [List.map_cons, List.nodup_cons]
    exact ⟨(mapFind_eq_none_iff _ _).1 hf, h.keys_nodup⟩
  · intro p hp
    rcases List.mem_cons.1 hp with h1 | h1
    · subst h1
      exact ⟨_, List.mem_cons_self _ _, rfl, rfl⟩
    · obtain ⟨n, hn, ha, hk⟩ := h.index_ok p h1
      exact ⟨n, List.mem_cons_of_mem _ hn, ha, hk⟩

theorem Bij.emplace_bij {c : Cache K V} (h : Bij c) {k : K} (hf : mapFind c.cache_ k = none)
    (v : V) :
    Bij { cache_ := (k, c.next_) :: c.cache_, keys_ := ⟨c.next_, k, v⟩ :: c.keys_,
          maxSize_ := c.maxSize_, elasticity_ := c.elasticity_, next_ := c.next_ + 1 } := by
  refine ⟨h.inv.emplace_inv hf v, ?_, ?_⟩
  · simp only [List.map_cons, List.nodup_cons]
    refine ⟨?_, h.key_nodup⟩
    intro hmem
    obtain ⟨n, hn, e⟩ := List.mem_map.1 hmem
    have h1 := h.node_indexed n hn
    rw [e] at h1
    exact (mapFind_eq_none_iff _ _).1 hf (List.mem_map.2 ⟨_, h1, rfl⟩)
  · intro n hn
    rcases List.mem_cons.1 hn with h1 | h1
    · subst h1
      exact List.mem_cons_self _ _
    · exact List.mem_cons_of_mem _ (h.node_indexed n h1)

end PruneLemmas

/-! ## Runs of operations -/

section RunLemmas
variable {K V : Type} [DecidableEq K]

/-- Insertion never fails on a well-formed state, and keeps it well-formed. -/
theorem insert_spec (c : Cache K V) (h : Inv c) (k : K) (v : V) :
    ∃ c1, c.insert k v = some c1 ∧ Inv c1 ∧
      c1.maxSize_ = c.maxSize_ ∧ c1.elasticity_ = c.elasticity_ ∧
      (Bij c → Bij c1) ∧ (0 < c.maxSize_ → SizeBound c → SizeBound c1) := by
  cases hf : mapFind c.cache_ k with
  | some it =>
    obtain ⟨n, hn, _, _, hins⟩ := insert_hit h hf v
    exact ⟨_, hins, h.promote_inv hn v, rfl, rfl, fun hB => hB.promote_bij hn v, fun _ hs => hs⟩
  | none =>
    obtain ⟨cnt, c1, hp, hinv, hm, he, _, _, _, hbij, _, hnop, hloop⟩ :=
      prune_spec _ (h.emplace_inv hf v)
    refine ⟨c1, ?_, hinv, hm, he, fun hB => hbij (hB.emplace_bij hf v), ?_⟩
    · rw [insert_miss_eq hf v, hp]
      rfl
    · intro hpos _
      by_cases hc : c.maxSize_ = 0 ∨ (c.cache_.length + 1) < (c.maxSize_ + c.elasticity_) % SIZE_WRAP
      · have := hnop (by simpa [Cache.getMaxAllowedSize] using hc)
        subst this
        rcases hc with hc | hc
        · omega
        · right
          simpa [Cache.size, Cache.getMaxAllowedSize] using hc
      · have := hloop (by simpa [Cache.getMaxAllowedSize] using hc)
        left
        simp only [Cache.size, hm, this]
        exact Nat.min_le_right _ _

theorem tryGet_spec (c : Cache K V) (h : Inv c) (k : K) :
    ∃ r c1, c.tryGet k = some (r, c1) ∧ Inv c1 ∧ c1.cache_ = c.cache_ ∧
      c1.maxSize_ = c.maxSize_ ∧ c1.elasticity_ = c.elasticity_ ∧ (Bij c → Bij c1) := by
  cases hf : mapFind c.cache_ k with
  | some it =>
    obtain ⟨n, hn, _, _, hget⟩ := tryGet_hit h hf
    exact ⟨_, _, hget, h.promote_inv hn n.value, rfl, rfl, rfl, fun hB => hB.promote_bij hn n.value⟩
  | none => exact ⟨_, _, tryGet_miss hf, h, rfl, rfl, rfl, id⟩

theorem get_spec (c : Cache K V) (h : Inv c) (k : K) :
    ∃ r c1, c.get k = some (r, c1) ∧ Inv c1 ∧ c1.cache_ = c.cache_ ∧
      c1.maxSize_ = c.maxSize_ ∧ c1.elasticity_ = c.elasticity_ ∧ (Bij c → Bij c1) := by
  cases hf : mapFind c.cache_ k with
  | some it =>
    obtain ⟨n, hn, _, _, hget⟩ := get_hit h hf
    exact ⟨_, _, hget, h.promote_inv hn n.value, rfl, rfl, rfl, fun hB => hB.promote_bij hn n.value⟩
  | none => exact ⟨_, _, get_miss hf, h, rfl, rfl, rfl, id⟩

theorem remove_size_le (c : Cache K V) (k : K) : (c.remove k).2.size ≤ c.size := by
  unfold Cache.remove
  cases mapFind c.cache_ k with
  | none => exact Nat.le_refl _
  | some it => exact mapErase_length_le _ _

theorem remove_params (c : Cache K V) (k : K) :
    (c.remove k).2.maxSize_ = c.maxSize_ ∧ (c.remove k).2.elasticity_ = c.elasticity_ := by
  unfold Cache.remove
  cases mapFind c.cache_ k <;> exact ⟨rfl, rfl⟩

/-- Every operation succeeds on a well-formed state and keeps it well-formed; every
operation other than `remove` keeps the bijection; the capacity parameters never change;
a bounded cache keeps its size bound. -/
theorem step_spec (c : Cache K V) (h : Inv c) (op : Op K V) :
    ∃ c1, step c op = some c1 ∧ Inv c1 ∧
      c1.maxSize_ = c.maxSize_ ∧ c1.elasticity_ = c.elasticity_ ∧
      (op.isRemove = false → Bij c → Bij c1) ∧
      (0 < c.maxSize_ → SizeBound c → SizeBound c1) := by
  cases op with
  | insert k v =>
    obtain ⟨c1, h1, h2, h3, h4, h5, h6⟩ := insert_spec c h k v
    exact ⟨c1, h1, h2, h3, h4, fun _ => h5, h6⟩
  | tryGet k =>
    obtain ⟨r, c1, h1, h2, h3, h4, h5, h6⟩ := tryGet_spec c h k
    refine ⟨c1, by simp [step, h1], h2, h4, h5, fun _ => h6, fun _ hs => ?_⟩
    simpa [SizeBound, Cache.size, Cache.getMaxAllowedSize, h3, h4, h5] using hs
  | get k =>
    obtain ⟨r, c1, h1, h2, h3, h4, h5, h6⟩ := get_spec c h k
    refine ⟨c1, by simp [step, h1], h2, h4, h5, fun _ => h6, fun _ hs => ?_⟩
    simpa [SizeBound, Cache.size, Cache.getMaxAllowedSize, h3, h4, h5] using hs
  | getCopy k =>
    obtain ⟨r, c1, h1, h2, h3, h4, h5, h6⟩ := get_spec c h k
    refine ⟨c1, by simp [step, Cache.getCopy, h1], h2, h4, h5, fun _ => h6, fun _ hs => ?_⟩
    simpa [SizeBound, Cache.size, Cache.getMaxAllowedSize, h3, h4, h5] using hs
  | remove k =>
    obtain ⟨hm, he⟩ := remove_params c k
    refine ⟨(c.remove k).2, rfl, h.remove k, hm, he, fun hr => by simp [Op.isRemove] at hr,
      fun _ hs => ?_⟩
    have hle := remove_size_le c k
    unfold SizeBound Cache.getMaxAllowedSize at hs ⊢
    rw [hm, he]
    omega
  | contains k => exact ⟨c, rfl, h, rfl, rfl, fun _ hB => hB, fun _ hs => hs⟩
  | clear =>
    exact ⟨c.clear, rfl, inv_clear c, rfl, rfl, fun _ _ => bij_clear c,
      fun _ _ => Or.inl (Nat.zero_le _)⟩
  | size => exact ⟨c, rfl, h, rfl, rfl, fun _ hB => hB, fun _ hs => hs⟩
  | empty => exact ⟨c, rfl, h, rfl, rfl, fun _ hB => hB, fun _ hs => hs⟩
  | cwalk => exact ⟨c, rfl, h, rfl, rfl, fun _ hB => hB, fun _ hs => hs⟩

theorem run_spec : ∀ (ops : List (Op K V)) (c : Cache K V), Inv c →
    ∃ c1, run c ops = some c1 ∧ Inv c1 ∧
      c1.maxSize_ = c.maxSize_ ∧ c1.elasticity_ = c.elasticity_ ∧
      ((∀ op ∈ ops, op.isRemove = false) → Bij c → Bij c1) ∧
      (0 < c.maxSize_ → SizeBound c → SizeBound c1) := by
  intro ops
  induction ops with
  | nil => intro c h; exact ⟨c, rfl, h, rfl, rfl, fun _ hB => hB, fun _ hs => hs⟩
  | cons op ops ih =>
    intro c h
    obtain ⟨c1, h1, h2, h3, h4, h5, h6⟩ := step_spec c h op
    obtain ⟨c2, g1, g2, g3, g4, g5, g6⟩ := ih c1 h2
    refine ⟨c2, by simp [run, h1, g1], g2, g3.trans h3, g4.trans h4, ?_, ?_⟩
    · intro hall hB
      exact g5 (fun o ho => hall o (List.mem_cons_of_mem _ ho))
        (h5 (hall op (List.mem_cons_self _ _)) hB)
    · intro hpos hs
      exact g6 (h3 ▸ hpos) (h6 hpos hs)

/-- Every sequence of public operations on a new cache runs to the end. -/
theorem run_new_total (m e : Nat) (ops : List (Op K V)) :
    ∃ c, run (Cache.new m e) ops = some c :=
  let ⟨c, h, _⟩ := run_spec ops (Cache.new m e) (inv_new m e)
  ⟨c, h⟩

theorem Reachable.inv {c : Cache K V} (h : Reachable c) : Inv c := by
  obtain ⟨m, e, ops, hrun⟩ := h
  obtain ⟨c1, h1, h2, _⟩ := run_spec ops (Cache.new m e) (inv_new m e)
  rw [hrun] at h1
  cases h1
  exact h2

theorem Reachable.sizeBound {c : Cache K V} (h : Reachable c) (hpos : 0 < c.maxSize_) :
    SizeBound c := by
  obtain ⟨m, e, ops, hrun⟩ := h
  obtain ⟨c1, h1, _, h3, _, _, h6⟩ := run_spec ops (Cache.new m e : Cache K V) (inv_new m e)
  rw [hrun] at h1
  cases h1
  apply h6
  · rw [← h3]
    exact hpos
  · left
    simp [Cache.size, Cache.new]

theorem ReachableNoRemove.bij {c : Cache K V} (h : ReachableNoRemove c) : Bij c := by
  obtain ⟨m, e, ops, hall, hrun⟩ := h
  obtain ⟨c1, h1, _, _, _, h5, _⟩ := run_spec ops (Cache.new m e) (inv_new m e)
  rw [hrun] at h1
  cases h1
  exact h5 hall (bij_new m e)

theorem Reachable.step {c c1 : Cache K V} (h : Reachable c) (op : Op K V)
    (hs : step c op = some c1) : Reachable c1 := by
  obtain ⟨m, e, ops, hrun⟩ := h
  refine ⟨m, e, ops ++ [op], ?_⟩
  have : ∀ (l : List (Op K V)) (a : Cache K V), run a l = some c →
      run a (l ++ [op]) = some c1 := by
    intro l
    induction l with
    | nil =>
      intro a ha
      simp only [run] at ha
      cases ha
      simp [run, hs]
    | cons o l ih =>
      intro a ha
      simp only [run, List.cons_append] at ha ⊢
      cases hso : lru17.step a o with
      | none => simp [hso] at ha
      | some a1 =>
        simp only [hso, Option.bind_some] at ha ⊢
        exact ih a1 ha
  exact this ops _ hrun

end RunLemmas

/-! ## Insertion of a new key -/

section InsertLemmas
variable {K V : Type} [DecidableEq K]

theorem contains_eq_false_iff (c : Cache K V) (k : K) :
    c.contains k = false ↔ mapFind c.cache_ k = none := by
  unfold Cache.contains
  cases mapFind c.cache_ k <;> simp

theorem contains_iff_mem (c : Cache K V) (k : K) :
    c.contains k = true ↔ k ∈ c.cache_.map Prod.fst :=
  mapFind_isSome_iff _ _

theorem Bij.contains_iff {c : Cache K V} (h : Bij c) (k : K) :
    c.contains k = true ↔ k ∈ c.cwalk.map KeyValuePair.key := by
  rw [contains_iff_mem]
  have hk : c.cwalk.map KeyValuePair.key = c.keys_.map Node.key := by
    simp [Cache.cwalk, List.map_map, Function.comp_def, Node.pair]
  rw [hk]
  constructor
  · intro hm
    obtain ⟨p, hp, rfl⟩ := List.mem_map.1 hm
    obtain ⟨n, hn, _, hkey⟩ := h.inv.index_ok p hp
    exact List.mem_map.2 ⟨n, hn, hkey⟩
  · intro hm
    obtain ⟨n, hn, rfl⟩ := List.mem_map.1 hm
    exact List.mem_map.2 ⟨_, h.node_indexed n hn, rfl⟩

/-- Insertion of a key that is not in the map, on a well-formed state. -/
theorem insert_miss_spec {c : Cache K V} (h : Inv c) {k : K}
    (hf : mapFind c.cache_ k = none) (v : V) :
    ∃ c1 j, c.insert k v = some c1 ∧ Inv c1 ∧ (Bij c → Bij c1) ∧
      c1.maxSize_ = c.maxSize_ ∧ c1.elasticity_ = c.elasticity_ ∧
      c1.keys_ = (⟨c.next_, k, v⟩ :: c.keys_).take j ∧
      c1.cache_.Sublist ((k, c.next_) :: c.cache_) ∧
      ((c.maxSize_ = 0 ∨ c.size + 1 < c.getMaxAllowedSize) →
        c1.keys_ = ⟨c.next_, k, v⟩ :: c.keys_ ∧ c1.cache_ = (k, c.next_) :: c.cache_) ∧
      (¬ (c.maxSize_ = 0 ∨ c.size + 1 < c.getMaxAllowedSize) →
        c1.size = min (c.size + 1) c.maxSize_) := by
  obtain ⟨cnt, c1, hp, hinv, hm, he, _, ⟨j, hj⟩, hsub, hbij, _, hnop, hloop⟩ :=
    prune_spec _ (h.emplace_inv hf v)
  refine ⟨c1, j, ?_, hinv, fun hB => hbij (hB.emplace_bij hf v), hm, he, hj, hsub, ?_, ?_⟩
  · rw [insert_miss_eq hf v, hp]
    rfl
  · intro hc
    have := hnop (by simpa [Cache.getMaxAllowedSize, Cache.size] using hc)
    subst this
    exact ⟨rfl, rfl⟩
  · intro hc
    have := hloop (by simpa [Cache.getMaxAllowedSize, Cache.size] using hc)
    simpa [Cache.size] using this

end InsertLemmas

/-! ## The claims -/

section Claims
variable {K V : Type} [DecidableEq K]

/-- C1 (round trip, broken by the defect of `remove`): on `Cache(1, 0)`, after
`insert(1, 10)`, `remove(1)` and `insert(2, 20)`, the call `insert(1, 30)` is followed by
`contains(1) == false`, an empty `tryGet(1)` and a `get(1)` that throws `KeyNotFound`.
The node that `remove(1)` left in `keys_` is at the tail; `prune` erases the map entry of
its key, which is the entry just inserted. -/
theorem C1_round_trip_broken_after_remove :
    run (Cache.new 1 0) [Op.insert 1 10, Op.remove 1, Op.insert 2 20] = some exRemoved ∧
    ∃ c1 : Cache Nat Nat, exRemoved.insert 1 30 = some c1 ∧ c1.contains 1 = false ∧
      c1.tryGet 1 = some (none, c1) ∧
      c1.get 1 = some (Except.error KeyNotFound.key_not_found, c1) :=
  ⟨rfl, _, rfl, rfl, rfl, rfl⟩

/-- C2 as stated fails when `maxSize + elasticity` exceeds the range of `size_t`, on
`Cache(5, SIZE_MAX)`, whose hard limit wraps around to 4.  With the sum read as a sum of
natural numbers: after the keys 1 to 5, `insert(6, 60)` finds `|L| + 1 = 6` below the sum
and yet evicts key 1.  With the sum read as the `size_t` sum: after the keys 1 to 3,
`insert(4, 40)` finds `|L| + 1 = 4` not below the sum and yet leaves `size() == 4`,
not `maxSize == 5`. -/
theorem C2_fails_when_hard_limit_wraps :
    (ReachableNoRemove exWrapFive ∧ exWrapFive.contains 6 = false ∧
      exWrapFive.cwalk.length + 1 < exWrapFive.maxSize_ + exWrapFive.elasticity_ ∧
      ∃ c1, exWrapFive.insert 6 60 = some c1 ∧ c1.cwalk ≠ ⟨6, 60⟩ :: exWrapFive.cwalk) ∧
    (ReachableNoRemove exWrapThree ∧ exWrapThree.contains 4 = false ∧
      ¬ (exWrapThree.maxSize_ = 0 ∨
        exWrapThree.cwalk.length + 1 < exWrapThree.getMaxAllowedSize) ∧
      ∃ c1, exWrapThree.insert 4 40 = some c1 ∧ c1.size ≠ c1.maxSize_) := by
  refine ⟨⟨⟨5, 2 ^ 64 - 1, [Op.insert 1 10, Op.insert 2 20, Op.insert 3 30, Op.insert 4 40,
      Op.insert 5 50], by decide, by decide⟩, rfl, by decide, _, rfl, by decide⟩,
    ⟨⟨5, 2 ^ 64 - 1, [Op.insert 1 10, Op.insert 2 20, Op.insert 3 30], by decide, by decide⟩,
      rfl, by decide, _, rfl, by decide⟩⟩

/-- C2 (amended: the sum `maxSize + elasticity` fits in a `size_t`): on a cache on which
`remove` was never called, with recency sequence `L`, the insertion of a key `k` that is
not contained succeeds; the new recency sequence is `(k, v)` followed by `L` when
`maxSize == 0` or `|L| + 1 < maxSize + elasticity`, and otherwise it is the first
`maxSize` entries of `(k, v)` followed by `L`, with `size() == maxSize`; in both
cases `contains` is true for exactly the keys of the new sequence. -/
theorem C2_insert_new_key_strict_lru (c : Cache K V) (h : ReachableNoRemove c) (k : K) (v : V)
    (hk : c.contains k = false) (hfit : c.maxSize_ + c.elasticity_ < SIZE_WRAP) :
    ∃ c1, c.insert k v = some c1 ∧
      ((c.maxSize_ = 0 ∨ c.cwalk.length + 1 < c.maxSize_ + c.elasticity_) →
        c1.cwalk = ⟨k, v⟩ :: c.cwalk) ∧
      (¬ (c.maxSize_ = 0 ∨ c.cwalk.length + 1 < c.maxSize_ + c.elasticity_) →
        c1.cwalk = (⟨k, v⟩ :: c.cwalk).take c.maxSize_ ∧ c1.size = c.maxSize_) ∧
      (∀ k1, c1.contains k1 = true ↔ k1 ∈ c1.cwalk.map KeyValuePair.key) := by
  have hB := h.bij
  have hf := (contains_eq_false_iff c k).1 hk
  obtain ⟨c1, j, hins, _, hbij, hm, _, hkeys, _, hnop, hloop⟩ := insert_miss_spec hB.inv hf v
  have hlen : c.cwalk.length = c.size := by
    simp [Cache.cwalk, Cache.size, hB.length_eq]
  have hmax : c.getMaxAllowedSize = c.maxSize_ + c.elasticity_ := by
    unfold Cache.getMaxAllowedSize
    exact Nat.mod_eq_of_lt hfit
  rw [hlen, ← hmax]
  refine ⟨c1, hins, ?_, ?_, (hbij hB).contains_iff⟩
  · intro hc
    simp [Cache.cwalk, (hnop hc).1, Node.pair]
  · intro hc
    have hsize := hloop hc
    have hge : c.maxSize_ ≤ c.size + 1 := by
      have : ¬ c.size + 1 < c.getMaxAllowedSize := fun hlt => hc (Or.inr hlt)
      rw [hmax] at this
      omega
    rw [Nat.min_eq_right hge] at hsize
    refine ⟨?_, hsize⟩
    have hl1 : c1.keys_.length = c.maxSize_ := by
      rw [← (hbij hB).length_eq]
      exact hsize
    have htake : c1.keys_ = (({ addr := c.next_, key := k, value := v } : Node K V) ::
        c.keys_).take c.maxSize_ := by
      rw [hkeys, List.take_eq_take]
      rw [hkeys, List.length_take] at hl1
      rw [hl1]
      simp only [List.length_cons, ← hB.length_eq]
      exact (Nat.min_eq_left hge).symm
    rw [Cache.cwalk, htake, List.map_take]
    rfl

/-- C8 (remove reports and removes membership): in every reachable state, `remove(k)`
returns true exactly when `contains(k)` was true; when it returns true, `contains(k)` is
false afterwards and `size()` is one less; when it returns false, the state, hence
`size()` and the containment of every key, is unchanged. -/
theorem C8_remove_reports_membership (c : Cache K V) (h : Reachable c) (k : K) :
    (c.remove k).1 = c.contains k ∧
    ((c.remove k).1 = true →
      (c.remove k).2.contains k = false ∧ (c.remove k).2.size + 1 = c.size) ∧
    ((c.remove k).1 = false →
      (c.remove k).2.size = c.size ∧ ∀ k1, (c.remove k).2.contains k1 = c.contains k1) := by
  have hinv := h.inv
  unfold Cache.remove Cache.contains
  cases hf : mapFind c.cache_ k with
  | none => simp [hf]
  | some it =>
    refine ⟨rfl, fun _ => ⟨?_, ?_⟩, fun hfalse => by simp at hfalse⟩
    · simp [mapFind_mapErase]
    · have hmem : k ∈ c.cache_.map Prod.fst := List.mem_map.2 ⟨_, mapFind_mem hf, rfl⟩
      exact mapErase_length_of_mem hinv.keys_nodup hmem

/-- C9 (removal from the recency sequence, missed by the code): on the default
`Cache(64, 10)`, after `insert(1, 10)`, the call `remove(1)` returns true and the traversal
`cwalk` still visits the entry `(1, 10)`. -/
theorem C9_remove_leaves_node_in_list :
    ∃ c : Cache Nat Nat, run (Cache.new 64 10) [Op.insert 1 10] = some c ∧
      (c.remove 1).1 = true ∧ (c.remove 1).2.cwalk = [⟨1, 10⟩] :=
  ⟨_, rfl, rfl, rfl⟩

/-- C10 (clear): after `clear()`, from any state, `size() == 0`, `empty()` is true,
`contains(k)` is false for every key and `cwalk` visits no entry. -/
theorem C10_clear_empties (c : Cache K V) :
    c.clear.size = 0 ∧ c.clear.empty = true ∧ (∀ k, c.clear.contains k = false) ∧
      c.clear.cwalk = [] := by
  refine ⟨rfl, rfl, fun k => rfl, rfl⟩

end Claims

section Claims2
variable {K V : Type} [DecidableEq K]

/-- Witness of C2: on `Cache(2, 0)` holding the keys 2 and 1, `insert(3, 30)` evicts the
tail key 1. -/
theorem C2_insert_new_key_strict_lru_witness :
    ReachableNoRemove exTwo ∧ exTwo.contains 3 = false ∧
      exTwo.maxSize_ + exTwo.elasticity_ < SIZE_WRAP ∧
      ∃ c1, exTwo.insert 3 30 = some c1 ∧ c1.cwalk = [⟨3, 30⟩, ⟨2, 20⟩] ∧ c1.size = 2 := by
  have hr : ReachableNoRemove exTwo :=
    ⟨2, 0, [Op.insert 1 10, Op.insert 2 20], by decide, by decide⟩
  have hfit : exTwo.maxSize_ + exTwo.elasticity_ < SIZE_WRAP := by decide
  obtain ⟨c1, h1, _, h3, _⟩ := C2_insert_new_key_strict_lru exTwo hr 3 30 rfl hfit
  exact ⟨hr, rfl, hfit, c1, h1, (h3 (by decide)).1, (h3 (by decide)).2⟩

/-- C3 (recency promotion): on a new `Cache(2, 0)` and for pairwise distinct keys `A`, `B`,
`C`, the calls `insert(A)`, `insert(B)`, `get(A)`, `insert(C)` all succeed, `get(A)` returns
the value inserted for `A`, and afterwards `B` is not contained, `A` and `C` are
contained, and `size() == 2`. -/
theorem C3_recency_promotion (A B C : K) (va vb vc : V) (hAB : A ≠ B) (hAC : A ≠ C)
    (hBC : B ≠ C) :
    ∃ c1 c2 c3 c4 : Cache K V,
      (Cache.new 2 0).insert A va = some c1 ∧ c1.insert B vb = some c2 ∧
      c2.get A = some (Except.ok va, c3) ∧ c3.insert C vc = some c4 ∧
      c4.contains B = false ∧ c4.contains A = true ∧ c4.contains C = true ∧ c4.size = 2 := by
  have hBA : B ≠ A := fun e => hAB e.symm
  have hCA : C ≠ A := fun e => hAC e.symm
  have hCB : C ≠ B := fun e => hBC e.symm
  refine ⟨{ cache_ := [(A, 0)], keys_ := [⟨0, A, va⟩], maxSize_ := 2, elasticity_ := 0,
            next_ := 1 },
          { cache_ := [(B, 1), (A, 0)], keys_ := [⟨1, B, vb⟩, ⟨0, A, va⟩], maxSize_ := 2,
            elasticity_ := 0, next_ := 2 },
          { cache_ := [(B, 1), (A, 0)], keys_ := [⟨0, A, va⟩, ⟨1, B, vb⟩], maxSize_ := 2,
            elasticity_ := 0, next_ := 2 },
          { cache_ := [(C, 2), (A, 0)], keys_ := [⟨2, C, vc⟩, ⟨0, A, va⟩], maxSize_ := 2,
            elasticity_ := 0, next_ := 3 }, ?_, ?_, ?_, ?_, ?_, ?_, ?_, ?_⟩
  · simp [Cache.insert, Cache.new, mapFind, mapAssign, mapErase, Cache.prune,
      Cache.getMaxAllowedSize, SIZE_WRAP]
  · simp [Cache.insert, mapFind, mapAssign, mapErase, Cache.prune,
      Cache.getMaxAllowedSize, SIZE_WRAP, Cache.pruneLoop, hAB]
  · simp [Cache.get, mapFind, hBA, splice, deref]
  · simp [Cache.insert, mapFind, mapAssign, mapErase, Cache.prune,
      Cache.getMaxAllowedSize, SIZE_WRAP, Cache.pruneLoop, hAC, hBC, hCB, hAB]
  · simp [Cache.contains, mapFind, hCB, hAB]
  · simp [Cache.contains, mapFind, hCA]
  · simp [Cache.contains, mapFind]
  · simp [Cache.size]

/-- Witness of C3, with the keys 1, 2, 3. -/
theorem C3_recency_promotion_witness :
    (1 : Nat) ≠ 2 ∧ (1 : Nat) ≠ 3 ∧ (2 : Nat) ≠ 3 ∧
    ∃ c1 c2 c3 c4 : Cache Nat Nat,
      (Cache.new 2 0).insert 1 10 = some c1 ∧ c1.insert 2 20 = some c2 ∧
      c2.get 1 = some (Except.ok 10, c3) ∧ c3.insert 3 30 = some c4 ∧
      c4.contains 2 = false ∧ c4.contains 1 = true ∧ c4.contains 3 = true ∧ c4.size = 2 :=
  ⟨by decide, by decide, by decide,
    C3_recency_promotion 1 2 3 10 20 30 (by decide) (by decide) (by decide)⟩

/-- Witness of C8: on `Cache(2, 0)` holding the keys 2 and 1, `remove(1)` returns true,
after which key 1 is not contained and the size has gone from 2 to 1. -/
theorem C8_remove_reports_membership_witness :
    Reachable exTwo ∧ (exTwo.remove 1).1 = true ∧ (exTwo.remove 1).2.contains 1 = false ∧
      (exTwo.remove 1).2.size + 1 = exTwo.size := by
  have hr : Reachable exTwo := ⟨2, 0, [Op.insert 1 10, Op.insert 2 20], by decide⟩
  have h := C8_remove_reports_membership exTwo hr 1
  exact ⟨hr, rfl, (h.2.1 rfl).1, (h.2.1 rfl).2⟩

end Claims2

/-! ## Runs of insertions of distinct keys -/

section InsertRuns
variable {K V : Type} [DecidableEq K]

/-- Distinct keys, none of them in the map, are inserted into a cache in bijection: the
run succeeds, the keys of the list are an initial segment of the inserted keys, latest
first, followed by the former keys, and the size follows `sizeAfterInsert`. -/
theorem insertOps_spec : ∀ (kvs : List (K × V)) (c : Cache K V), Bij c →
    (kvs.map Prod.fst).Nodup → (∀ k ∈ kvs.map Prod.fst, k ∉ c.cache_.map Prod.fst) →
    ∃ c1 j, run c (insertOps kvs) = some c1 ∧ Bij c1 ∧
      c1.maxSize_ = c.maxSize_ ∧ c1.elasticity_ = c.elasticity_ ∧
      c1.keys_.map Node.key = ((kvs.map Prod.fst).reverse ++ c.keys_.map Node.key).take j ∧
      c1.size = (sizeAfterInsert c.maxSize_ c.getMaxAllowedSize)^[kvs.length] c.size := by
  intro kvs
  induction kvs with
  | nil =>
    intro c hB _ _
    exact ⟨c, (c.keys_.map Node.key).length, rfl, hB, rfl, rfl, by simp, rfl⟩
  | cons p rest ih =>
    intro c hB hnd hfresh
    obtain ⟨k, v⟩ := p
    simp only [List.map_cons, List.nodup_cons] at hnd
    have hf : mapFind c.cache_ k = none :=
      (mapFind_eq_none_iff _ _).2 (hfresh k (by simp))
    obtain ⟨c1, j1, hins, _, hbij, hm, he, hkeys, hsub, hnop, hloop⟩ :=
      insert_miss_spec hB.inv hf v
    have hfresh1 : ∀ k1 ∈ rest.map Prod.fst, k1 ∉ c1.cache_.map Prod.fst := by
      intro k1 hk1 hmem
      have := (List.Sublist.map Prod.fst hsub).subset hmem
      simp only [List.map_cons, List.mem_cons] at this
      rcases this with h1 | h1
      · exact hnd.1 (h1 ▸ hk1)
      · exact hfresh k1 (by simp [hk1]) h1
    obtain ⟨c2, j2, hrun, hB2, hm2, he2, hkeys2, hsize2⟩ := ih c1 (hbij hB) hnd.2 hfresh1
    have hstep : c1.size = sizeAfterInsert c.maxSize_ c.getMaxAllowedSize c.size := by
      unfold sizeAfterInsert
      by_cases hc : c.maxSize_ = 0 ∨ c.size + 1 < c.getMaxAllowedSize
      · rw [if_pos hc]
        simp [Cache.size, (hnop hc).2]
      · rw [if_neg hc]
        exact hloop hc
    have hmax : c1.getMaxAllowedSize = c.getMaxAllowedSize := by
      simp [Cache.getMaxAllowedSize, hm, he]
    refine ⟨c2, min j2 ((rest.map Prod.fst).reverse.length + j1), ?_, hB2, hm2.trans hm,
      he2.trans he, ?_, ?_⟩
    · simp only [insertOps, List.map_cons, run, step, hins, Option.bind_some]
      exact hrun
    · have e1 : (List.map Prod.fst ((k, v) :: rest)).reverse ++ c.keys_.map Node.key =
          (rest.map Prod.fst).reverse ++ (k :: c.keys_.map Node.key) := by simp
      rw [hkeys2, hkeys, List.map_take, List.map_cons, e1, ← List.take_take, List.take_append]
    · rw [hsize2, hstep, hm, hmax, List.length_cons, Function.iterate_succ_apply]

theorem sizeAfterInsert_iterate_lt (m M : Nat) :
    ∀ n, n < M → (sizeAfterInsert m M)^[n] 0 = n := by
  intro n
  induction n with
  | zero => intro _; rfl
  | succ n ih =>
    intro h
    rw [Function.iterate_succ_apply', ih (by omega)]
    unfold sizeAfterInsert
    rw [if_pos (Or.inr h)]

theorem sizeAfterInsert_iterate_min (m M : Nat) (hm : 1 ≤ m) (hM : M ≤ m) :
    ∀ n, (sizeAfterInsert m M)^[n] 0 = min n m := by
  intro n
  induction n with
  | zero => simp
  | succ n ih =>
    rw [Function.iterate_succ_apply', ih]
    unfold sizeAfterInsert
    by_cases hc : m = 0 ∨ min n m + 1 < M
    · rw [if_pos hc]
      omega
    · rw [if_neg hc]
      omega

/-- The size after `m + e + 1` insertions of new keys into a new `Cache(m, e)`. -/
theorem sizeAfterInsert_overfill (m e : Nat) (hm : 1 ≤ m) (hmw : m < SIZE_WRAP)
    (hew : e < SIZE_WRAP) :
    (sizeAfterInsert m ((m + e) % SIZE_WRAP))^[m + e + 1] 0 =
      if 2 ≤ e ∧ m + e < SIZE_WRAP then m + 1 else m := by
  by_cases hfit : m + e < SIZE_WRAP
  · rw [Nat.mod_eq_of_lt hfit]
    have h1 : (sizeAfterInsert m (m + e))^[m + e - 1] 0 = m + e - 1 :=
      sizeAfterInsert_iterate_lt m (m + e) _ (by omega)
    have h2 : m + e + 1 = (m + e - 1) + 1 + 1 := by omega
    have h3 : sizeAfterInsert m (m + e) (m + e - 1) = m := by
      unfold sizeAfterInsert
      rw [if_neg (by omega)]
      omega
    rw [h2, Function.iterate_succ_apply', Function.iterate_succ_apply', h1, h3]
    unfold sizeAfterInsert
    by_cases he : 2 ≤ e
    · rw [if_pos (by omega), if_pos ⟨he, hfit⟩]
    · rw [if_neg (by omega), if_neg (by omega)]
      omega
  · have hM : (m + e) % SIZE_WRAP ≤ m := by
      have : (m + e) % SIZE_WRAP = m + e - SIZE_WRAP := by
        rw [Nat.mod_eq_sub_mod (by omega)]
        exact Nat.mod_eq_of_lt (by omega)
      omega
    rw [sizeAfterInsert_iterate_min m _ hm hM, if_neg (by omega)]
    omega

end InsertRuns

section Claims3
variable {K V : Type} [DecidableEq K]

/-- C4 as stated fails: after the insertion of the four keys 1, 2, 3, 4 into a new
`Cache(1, 2)`, that is of `m + e + 1` distinct keys, `size()` is 2, above `m = 1`.
The third insertion prunes the cache back to one key and the fourth stays below the hard
limit 3. -/
theorem C4_size_above_maxSize :
    (([(1, 10), (2, 20), (3, 30), (4, 40)] : List (Nat × Nat)).map Prod.fst).Nodup ∧
    ([(1, 10), (2, 20), (3, 30), (4, 40)] : List (Nat × Nat)).length = 1 + 2 + 1 ∧
    ∃ c : Cache Nat Nat,
      run (Cache.new 1 2) (insertOps [(1, 10), (2, 20), (3, 30), (4, 40)]) = some c ∧
      ¬ c.size ≤ 1 :=
  ⟨by decide, rfl, _, rfl, by decide⟩

/-- C4 (amended): for `m ≥ 1` and `e` of type `size_t`, the insertion of `m + e + 1`
pairwise distinct keys into a new `Cache(m, e)` succeeds and leaves `size() ≤ m + 1`;
precisely, `size()` is `m + 1` when `e ≥ 2` and `m + e` fits in a `size_t`, and `m`
otherwise, so that `size() ≤ m` when `e ≤ 1`. -/
theorem C4_size_after_overfill (m e : Nat) (hm : 1 ≤ m) (hmw : m < SIZE_WRAP)
    (hew : e < SIZE_WRAP) (kvs : List (K × V)) (hnd : (kvs.map Prod.fst).Nodup)
    (hlen : kvs.length = m + e + 1) :
    ∃ c, run (Cache.new m e) (insertOps kvs) = some c ∧ c.size ≤ m + 1 ∧
      (e ≤ 1 → c.size ≤ m) ∧
      c.size = if 2 ≤ e ∧ m + e < SIZE_WRAP then m + 1 else m := by
  obtain ⟨c, j, hrun, _, _, _, _, hsize⟩ :=
    insertOps_spec kvs (Cache.new m e) (bij_new m e) hnd (by simp [Cache.new])
  have hs : c.size = if 2 ≤ e ∧ m + e < SIZE_WRAP then m + 1 else m := by
    rw [hsize, hlen]
    exact sizeAfterInsert_overfill m e hm hmw hew
  refine ⟨c, hrun, ?_, ?_, hs⟩
  · rw [hs]
    split <;> omega
  · intro he
    rw [hs, if_neg (by omega)]

/-- Witness of C4: the keys 1, 2, 3, 4 inserted into a new `Cache(1, 2)` leave two keys. -/
theorem C4_size_after_overfill_witness :
    1 ≤ 1 ∧ 1 < SIZE_WRAP ∧ 2 < SIZE_WRAP ∧
    (([(1, 10), (2, 20), (3, 30), (4, 40)] : List (Nat × Nat)).map Prod.fst).Nodup ∧
    ([(1, 10), (2, 20), (3, 30), (4, 40)] : List (Nat × Nat)).length = 1 + 2 + 1 ∧
    ∃ c : Cache Nat Nat,
      run (Cache.new 1 2) (insertOps [(1, 10), (2, 20), (3, 30), (4, 40)]) = some c ∧
      c.size ≤ 1 + 1 ∧ (2 ≤ 1 → c.size ≤ 1) ∧
      c.size = if 2 ≤ 2 ∧ 1 + 2 < SIZE_WRAP then 1 + 1 else 1 :=
  ⟨by decide, by decide, by decide, by decide, rfl,
    C4_size_after_overfill 1 2 (by decide) (by decide) (by decide)
      [(1, 10), (2, 20), (3, 30), (4, 40)] (by decide) rfl⟩

/-- C5 (the oldest key is evicted): for `m ≥ 1`, the insertion of `m + e + 1` pairwise
distinct keys into a new `Cache(m, e)`, with no other call in between, succeeds, and
afterwards the first key is not retrievable: `contains` returns false, `tryGet` returns
empty and `get` throws `KeyNotFound`, each leaving the state as it is. -/
theorem C5_first_key_evicted (m e : Nat) (hm : 1 ≤ m) (k0 : K) (v0 : V)
    (rest : List (K × V)) (hnd : (((k0, v0) :: rest).map Prod.fst).Nodup)
    (hlen : ((k0, v0) :: rest).length = m + e + 1) :
    ∃ c, run (Cache.new m e) (insertOps ((k0, v0) :: rest)) = some c ∧
      c.contains k0 = false ∧ c.tryGet k0 = some (none, c) ∧
      c.get k0 = some (Except.error KeyNotFound.key_not_found, c) := by
  obtain ⟨c, j, hrun, hB, hm1, he1, hkeys, _⟩ :=
    insertOps_spec ((k0, v0) :: rest) (Cache.new m e) (bij_new m e) hnd (by simp [Cache.new])
  obtain ⟨c1, hrun1, _, _, _, _, hbound⟩ :=
    run_spec (insertOps ((k0, v0) :: rest)) (Cache.new m e : Cache K V) (inv_new m e)
  rw [hrun] at hrun1
  cases hrun1
  have hsb : SizeBound c := hbound hm (Or.inl (Nat.zero_le _))
  have hsize : c.size ≤ m + e := by
    have hmod : (m + e) % SIZE_WRAP ≤ m + e := Nat.mod_le _ _
    have hm2 : c.maxSize_ = m := hm1
    have he2 : c.elasticity_ = e := he1
    unfold SizeBound Cache.getMaxAllowedSize at hsb
    rw [hm2, he2] at hsb
    omega
  simp only [List.length_cons] at hlen
  have hklen : (c.keys_.map Node.key).length = c.size := by
    simp [Cache.size, hB.length_eq]
  have hnil : (Cache.new m e : Cache K V).keys_ = [] := rfl
  rw [hnil, List.map_nil, List.append_nil, List.map_cons, List.reverse_cons] at hkeys
  have hj : j ≤ (rest.map Prod.fst).reverse.length := by
    have h1 : min j ((rest.map Prod.fst).reverse ++ [k0]).length = c.size := by
      rw [← List.length_take, ← hkeys, hklen]
    simp only [List.length_append, List.length_reverse, List.length_map, List.length_singleton]
      at h1 ⊢
    omega
  rw [List.take_append_of_le_length hj] at hkeys
  have hnot : k0 ∉ c.cache_.map Prod.fst := by
    intro hmem
    obtain ⟨p, hp, hp1⟩ := List.mem_map.1 hmem
    obtain ⟨n, hn, _, hkey⟩ := hB.inv.index_ok p hp
    have h2 : k0 ∈ c.keys_.map Node.key := List.mem_map.2 ⟨n, hn, hkey.trans hp1⟩
    rw [hkeys] at h2
    have h3 := List.mem_reverse.1 (List.mem_of_mem_take h2)
    simp only [List.map_cons, List.nodup_cons] at hnd
    exact hnd.1 h3
  have hf : mapFind c.cache_ k0 = none := (mapFind_eq_none_iff _ _).2 hnot
  exact ⟨c, hrun, (contains_eq_false_iff c k0).2 hf, tryGet_miss hf, get_miss hf⟩

/-- Witness of C5: the keys 1, 2, 3, 4 inserted into a new `Cache(1, 2)`. -/
theorem C5_first_key_evicted_witness :
    1 ≤ 1 ∧
    ((((1, 10) :: [(2, 20), (3, 30), (4, 40)] : List (Nat × Nat))).map Prod.fst).Nodup ∧
    ((1, 10) :: [(2, 20), (3, 30), (4, 40)] : List (Nat × Nat)).length = 1 + 2 + 1 ∧
    ∃ c : Cache Nat Nat,
      run (Cache.new 1 2) (insertOps ((1, 10) :: [(2, 20), (3, 30), (4, 40)])) = some c ∧
      c.contains 1 = false ∧ c.tryGet 1 = some (none, c) ∧
      c.get 1 = some (Except.error KeyNotFound.key_not_found, c) :=
  ⟨by decide, by decide, rfl,
    C5_first_key_evicted 1 2 (by decide) 1 10 [(2, 20), (3, 30), (4, 40)] (by decide) rfl⟩

/-- C6 (size bound): in every reachable state of a cache with `maxSize > 0`, any
insertion succeeds and leaves `size() ≤ maxSize` or `size()` below the hard limit, whether
the hard limit is the `size_t` sum returned by `getMaxAllowedSize` or the sum of the two
numbers; and the reachable state itself has `size() ≤ maxSize + elasticity`. -/
theorem C6_size_bound (c : Cache K V) (h : Reachable c) (hpos : 0 < c.maxSize_) (k : K)
    (v : V) :
    (∃ c1, c.insert k v = some c1 ∧
      (c1.size ≤ c1.maxSize_ ∨ c1.size < c1.getMaxAllowedSize) ∧
      (c1.size ≤ c1.maxSize_ ∨ c1.size < c1.maxSize_ + c1.elasticity_)) ∧
    c.size ≤ c.maxSize_ + c.elasticity_ := by
  have hsb := h.sizeBound hpos
  obtain ⟨c1, hins, _, hm, he, _, hkeep⟩ := insert_spec c h.inv k v
  have hsb1 : SizeBound c1 := hkeep hpos hsb
  have hmod : ∀ a : Cache K V, a.getMaxAllowedSize ≤ a.maxSize_ + a.elasticity_ :=
    fun a => Nat.mod_le _ _
  refine ⟨⟨c1, hins, hsb1, ?_⟩, ?_⟩
  · have := hmod c1
    unfold SizeBound at hsb1
    omega
  · have := hmod c
    unfold SizeBound at hsb
    omega

/-- Witness of C6: the insertion of key 3 into `Cache(2, 0)` holding the keys 2 and 1. -/
theorem C6_size_bound_witness :
    Reachable exTwo ∧ 0 < exTwo.maxSize_ ∧
    (∃ c1, exTwo.insert 3 30 = some c1 ∧
      (c1.size ≤ c1.maxSize_ ∨ c1.size < c1.getMaxAllowedSize) ∧
      (c1.size ≤ c1.maxSize_ ∨ c1.size < c1.maxSize_ + c1.elasticity_)) ∧
    exTwo.size ≤ exTwo.maxSize_ + exTwo.elasticity_ := by
  have hr : Reachable exTwo := ⟨2, 0, [Op.insert 1 10, Op.insert 2 20], by decide⟩
  have h := C6_size_bound exTwo hr (by decide) 3 30
  exact ⟨hr, by decide, h.1, h.2⟩

end Claims3

/-! ## Stored values -/

section PeekLemmas
variable {K V : Type} [DecidableEq K]

theorem deref_cons (x : Node K V) (keys : List (Node K V)) (it : Nat) :
    deref (x :: keys) it = if x.addr = it then some x else deref keys it := by
  unfold deref
  by_cases h : x.addr = it <;> simp [List.find?_cons, h]

theorem deref_filter_ne (keys : List (Node K V)) {a it : Nat} (h : it ≠ a) :
    deref (keys.filter (fun x => decide (x.addr ≠ a))) it = deref keys it := by
  induction keys with
  | nil => rfl
  | cons x rest ih =>
    by_cases hx : x.addr = a
    · have hne : ¬ x.addr = it := by
        rw [hx]
        exact fun e => h e.symm
      rw [List.filter_cons_of_neg (by simp [hx]), ih, deref_cons, if_neg hne]
    · rw [List.filter_cons_of_pos (by simp [hx]), deref_cons, deref_cons, ih]

/-- A lookup returns the stored value of the key, on a well-formed state. -/
theorem tryGet_eq_peek {c : Cache K V} (h : Inv c) (k : K) :
    ∃ c1, c.tryGet k = some (c.peek k, c1) := by
  cases hf : mapFind c.cache_ k with
  | none =>
    refine ⟨c, ?_⟩
    rw [tryGet_miss hf]
    simp [Cache.peek, hf]
  | some it =>
    obtain ⟨n, hn, ha, _, hget⟩ := tryGet_hit h hf
    subst ha
    have hp : c.peek k = some n.value := by
      simp [Cache.peek, hf, deref_of_mem h.addr_nodup hn]
    exact ⟨_, by rw [hp]; exact hget⟩

theorem peek_isSome {c : Cache K V} (h : Inv c) (k : K) :
    (c.peek k).isSome = c.contains k := by
  unfold Cache.peek Cache.contains
  cases hf : mapFind c.cache_ k with
  | none => rfl
  | some it =>
    obtain ⟨n, hn, ha, _⟩ := h.lookup hf
    subst ha
    simp [deref_of_mem h.addr_nodup hn]

/-- Stored values after a node is moved to the front with a value. -/
theorem peek_promote (c : Cache K V) (n : Node K V) (v : V) (k : K) :
    Cache.peek { c with keys_ := ({ n with value := v } ::
      c.keys_.filter (fun x => decide (x.addr ≠ n.addr))) } k =
      if mapFind c.cache_ k = some n.addr then some v else c.peek k := by
  unfold Cache.peek
  cases hf : mapFind c.cache_ k with
  | none => simp
  | some it =>
    by_cases hit : it = n.addr
    · subst hit
      simp [deref_cons]
    · have hne : ¬ n.addr = it := fun e => hit e.symm
      have hne2 : ¬ some it = some n.addr := fun e => hit (Option.some.inj e)
      simp only [hne2, if_false]
      rw [deref_cons]
      simp only [hne, if_false]
      rw [deref_filter_ne _ hit]

/-- Stored values after a new node is put at the front and entered in the map. -/
theorem peek_emplace {c c1 : Cache K V} (h : Inv c) {k0 : K} {v : V}
    (hk : c1.keys_ = ⟨c.next_, k0, v⟩ :: c.keys_) (hc : c1.cache_ = (k0, c.next_) :: c.cache_)
    (k : K) : c1.peek k = if k0 = k then some v else c.peek k := by
  unfold Cache.peek
  rw [hk, hc]
  by_cases e : k0 = k
  · simp [mapFind, e, deref_cons]
  · simp only [mapFind, e, if_false]
    cases hf : mapFind c.cache_ k with
    | none => rfl
    | some it =>
      obtain ⟨n, hn, ha, _⟩ := h.lookup hf
      have hlt := h.addr_lt n hn
      have hne : ¬ c.next_ = it := by omega
      simp [deref_cons, hne]

/-- A call of `insert`, `tryGet`, `get` or `contains` on an unbounded cache succeeds and
changes no stored value other than the one an `insert` sets. -/
theorem step_unbounded (c : Cache K V) (h : Inv c) (h0 : c.maxSize_ = 0) (op : Op K V)
    (hop : op.isInsertOrLookup = true) :
    ∃ c1, step c op = some c1 ∧ Inv c1 ∧ c1.maxSize_ = 0 ∧
      ∀ k, c1.peek k = match op.inserts k with
        | some v => some v
        | none => c.peek k := by
  have hlook : ∀ (k0 : K) (n : Node K V), n ∈ c.keys_ →
      ∀ k, (if mapFind c.cache_ k = some n.addr then some n.value else c.peek k) = c.peek k := by
    intro k0 n hn k
    by_cases e : mapFind c.cache_ k = some n.addr
    · simp [e, Cache.peek, deref_of_mem h.addr_nodup hn]
    · simp [e]
  cases op with
  | insert k0 v =>
    cases hf : mapFind c.cache_ k0 with
    | some it =>
      obtain ⟨n, hn, ha, hkey, hins⟩ := insert_hit h hf v
      refine ⟨_, hins, h.promote_inv hn v, h0, fun k => ?_⟩
      rw [peek_promote c n v k]
      by_cases e : k0 = k
      · subst e
        simp [Op.inserts, hf, ha]
      · have hne : ¬ mapFind c.cache_ k = some n.addr := by
          intro hk
          obtain ⟨n2, hn2, ha2, hk2⟩ := h.lookup hk
          have := addr_inj h.addr_nodup hn hn2 ha2
          subst this
          exact e (hkey.symm.trans hk2)
        simp [Op.inserts, e, hne]
    | none =>
      obtain ⟨c1, j, hins, hinv, _, hm, _, _, _, hnop, _⟩ := insert_miss_spec h hf v
      obtain ⟨hk1, hc1⟩ := hnop (Or.inl h0)
      refine ⟨c1, hins, hinv, hm.trans h0, fun k => ?_⟩
      rw [peek_emplace h hk1 hc1 k]
      by_cases e : k0 = k <;> simp [Op.inserts, e]
  | tryGet k0 =>
    cases hf : mapFind c.cache_ k0 with
    | some it =>
      obtain ⟨n, hn, _, _, hget⟩ := tryGet_hit h hf
      refine ⟨_, by simp [step, hget], h.promote_inv hn n.value, h0, fun k => ?_⟩
      have := peek_promote c n n.value k
      simp only [] at this
      simp only [Op.inserts]
      rw [this]
      exact hlook k0 n hn k
    | none => exact ⟨c, by simp [step, tryGet_miss hf], h, h0, fun k => rfl⟩
  | get k0 =>
    cases hf : mapFind c.cache_ k0 with
    | some it =>
      obtain ⟨n, hn, _, _, hget⟩ := get_hit h hf
      refine ⟨_, by simp [step, hget], h.promote_inv hn n.value, h0, fun k => ?_⟩
      have := peek_promote c n n.value k
      simp only [] at this
      simp only [Op.inserts]
      rw [this]
      exact hlook k0 n hn k
    | none => exact ⟨c, by simp [step, get_miss hf], h, h0, fun k => rfl⟩
  | contains k0 => exact ⟨c, rfl, h, h0, fun k => rfl⟩
  | getCopy k0 => simp [Op.isInsertOrLookup] at hop
  | remove k0 => simp [Op.isInsertOrLookup] at hop
  | clear => simp [Op.isInsertOrLookup] at hop
  | size => simp [Op.isInsertOrLookup] at hop
  | empty => simp [Op.isInsertOrLookup] at hop
  | cwalk => simp [Op.isInsertOrLookup] at hop

theorem run_unbounded : ∀ (ops : List (Op K V)) (c : Cache K V), Inv c → c.maxSize_ = 0 →
    (∀ op ∈ ops, op.isInsertOrLookup = true) →
    ∃ c1, run c ops = some c1 ∧ Inv c1 ∧
      ∀ k, c1.peek k = match lastInserted ops k with
        | some v => some v
        | none => c.peek k := by
  intro ops
  induction ops with
  | nil => intro c h _ _; exact ⟨c, rfl, h, fun k => rfl⟩
  | cons op ops ih =>
    intro c h h0 hops
    obtain ⟨c1, hs, hinv1, hm1, hp1⟩ :=
      step_unbounded c h h0 op (hops op (List.mem_cons_self _ _))
    obtain ⟨c2, hr, hinv2, hp2⟩ :=
      ih c1 hinv1 hm1 (fun o ho => hops o (List.mem_cons_of_mem _ ho))
    refine ⟨c2, by simp [run, hs, hr], hinv2, fun k => ?_⟩
    rw [hp2 k, hp1 k]
    simp only [lastInserted]
    cases lastInserted ops k <;> rfl

theorem mem_insertedKeys_iff (ops : List (Op K V)) (k : K) :
    k ∈ insertedKeys ops ↔ (lastInserted ops k).isSome = true := by
  induction ops with
  | nil => simp [insertedKeys, lastInserted]
  | cons op ops ih =>
    cases hl : lastInserted ops k with
    | some v =>
      rw [hl] at ih
      have hk : k ∈ insertedKeys ops := ih.2 rfl
      cases op <;> simp [insertedKeys, lastInserted, hl, hk]
    | none =>
      rw [hl] at ih
      have hk : k ∉ insertedKeys ops := fun hmem => by simpa using ih.1 hmem
      cases op with
      | insert k1 v1 =>
        by_cases e : k1 = k
        · simp [insertedKeys, lastInserted, hl, Op.inserts, e]
        · have e2 : ¬ k = k1 := fun x => e x.symm
          simp [insertedKeys, lastInserted, hl, Op.inserts, e, e2, hk]
      | _ => simp [insertedKeys, lastInserted, hl, Op.inserts, hk]

end PeekLemmas

section Claims4
variable {K V : Type} [DecidableEq K]

/-- C7 (unbounded mode): on a new cache with `maxSize = 0`, any sequence of calls of
`insert`, `tryGet`, `get` and `contains` succeeds; afterwards every key that was inserted
is contained and `tryGet` returns the value of its last insertion, and `size()` is the
number of distinct keys inserted. -/
theorem C7_unbounded_never_evicts (e : Nat) (ops : List (Op K V))
    (hops : ∀ op ∈ ops, op.isInsertOrLookup = true) :
    ∃ c, run (Cache.new 0 e) ops = some c ∧
      (∀ k ∈ insertedKeys ops, ∃ v, lastInserted ops k = some v ∧ c.contains k = true ∧
        ∃ c1, c.tryGet k = some (some v, c1)) ∧
      c.size = (insertedKeys ops).dedup.length := by
  obtain ⟨c, hrun, hinv, hpeek⟩ := run_unbounded ops (Cache.new 0 e) (inv_new 0 e) rfl hops
  have hp : ∀ k, c.peek k = lastInserted ops k := by
    intro k
    rw [hpeek k]
    cases lastInserted ops k <;> rfl
  refine ⟨c, hrun, ?_, ?_⟩
  · intro k hk
    have hsome := (mem_insertedKeys_iff ops k).1 hk
    obtain ⟨v, hv⟩ := Option.isSome_iff_exists.1 hsome
    obtain ⟨c1, hget⟩ := tryGet_eq_peek hinv k
    refine ⟨v, hv, ?_, c1, ?_⟩
    · rw [← peek_isSome hinv k, hp k, hv]
      rfl
    · rw [hget, hp k, hv]
  · have hperm : (c.cache_.map Prod.fst).Perm (insertedKeys ops).dedup := by
      rw [List.perm_ext_iff_of_nodup hinv.keys_nodup (List.nodup_dedup _)]
      intro k
      rw [List.mem_dedup, mem_insertedKeys_iff, ← hp k, peek_isSome hinv k, contains_iff_mem]
    have := hperm.length_eq
    simpa [Cache.size] using this

/-- Witness of C7: five calls on a new `Cache(0, 3)`, two of them insertions of key 1. -/
theorem C7_unbounded_never_evicts_witness :
    (∀ op ∈ ([Op.insert 1 10, Op.insert 2 20, Op.tryGet 1, Op.insert 1 11, Op.contains 2] :
      List (Op Nat Nat)), op.isInsertOrLookup = true) ∧
    ∃ c : Cache Nat Nat,
      run (Cache.new 0 3)
        [Op.insert 1 10, Op.insert 2 20, Op.tryGet 1, Op.insert 1 11, Op.contains 2] = some c ∧
      c.contains 1 = true ∧ (∃ c1, c.tryGet 1 = some (some 11, c1)) ∧ c.size = 2 := by
  have hops : ∀ op ∈ ([Op.insert 1 10, Op.insert 2 20, Op.tryGet 1, Op.insert 1 11,
      Op.contains 2] : List (Op Nat Nat)), op.isInsertOrLookup = true := by decide
  obtain ⟨c, hrun, hall, hsize⟩ := C7_unbounded_never_evicts 3 _ hops
  obtain ⟨v, hv, hc, c1, hget⟩ := hall 1 (by decide)
  have hv11 : v = 11 := (Option.some.inj hv).symm
  subst hv11
  exact ⟨hops, c, hrun, hc, ⟨c1, hget⟩, hsize⟩

end Claims4

section Claims5
variable {K V : Type} [DecidableEq K]

/-- C11 (insert of an existing key): in every reachable state, for a contained key `k`,
`insert(k, v)` succeeds, leaves `size()` as it is, prunes nothing (the map is untouched,
so the containment of every key is unchanged, and the list keeps its length), makes
`(k, v)` the first entry visited by `cwalk`, and a subsequent `get(k)` returns `v`. -/
theorem C11_insert_existing_key (c : Cache K V) (h : Reachable c) (k : K) (v : V)
    (hk : c.contains k = true) :
    ∃ c1, c.insert k v = some c1 ∧ c1.size = c.size ∧ c1.cache_ = c.cache_ ∧
      (∀ k1, c1.contains k1 = c.contains k1) ∧ c1.cwalk.length = c.cwalk.length ∧
      c1.cwalk.head? = some ⟨k, v⟩ ∧ ∃ c2, c1.get k = some (Except.ok v, c2) := by
  have hinv := h.inv
  obtain ⟨it, hf⟩ := Option.isSome_iff_exists.1 hk
  obtain ⟨n, hn, ha, hkey, hins⟩ := insert_hit hinv hf v
  have hinv1 := hinv.promote_inv hn v
  refine ⟨_, hins, rfl, rfl, fun _ => rfl, ?_, ?_, ?_⟩
  · have := (filter_addr_perm hinv.addr_nodup hn).length_eq
    simpa [Cache.cwalk] using this
  · simp [Cache.cwalk, Node.pair, hkey]
  · obtain ⟨n1, hn1, ha1, _, hget⟩ := get_hit hinv1 hf
    have hhead : ({ n with value := v } : Node K V) ∈
        ({ n with value := v } : Node K V) ::
          c.keys_.filter (fun x => decide (x.addr ≠ n.addr)) := List.mem_cons_self _ _
    have : n1 = { n with value := v } :=
      addr_inj hinv1.addr_nodup hhead hn1 (ha1.trans ha.symm)
    subst this
    exact ⟨_, hget⟩

/-- Witness of C11: `insert(1, 11)` on `Cache(2, 0)` holding the keys 2 and 1. -/
theorem C11_insert_existing_key_witness :
    Reachable exTwo ∧ exTwo.contains 1 = true ∧
    ∃ c1, exTwo.insert 1 11 = some c1 ∧ c1.size = exTwo.size ∧
      c1.cwalk.head? = some ⟨1, 11⟩ ∧ ∃ c2, c1.get 1 = some (Except.ok 11, c2) := by
  have hr : Reachable exTwo := ⟨2, 0, [Op.insert 1 10, Op.insert 2 20], by decide⟩
  obtain ⟨c1, h1, h2, _, _, _, h6, h7⟩ := C11_insert_existing_key exTwo hr 1 11 rfl
  exact ⟨hr, rfl, c1, h1, h2, h6, h7⟩

/-- C12 (`get` and `tryGet` are the same lookup): in every reachable state, either `k` is
not contained, `tryGet(k)` returns empty, `get(k)` throws `KeyNotFound` and both leave the
state as it was; or `k` is contained and both return the same value and lead to the same
state.  `getCopy(k)` is `get(k)`. -/
theorem C12_get_tryGet_agree (c : Cache K V) (h : Reachable c) (k : K) :
    ((c.contains k = false ∧ c.tryGet k = some (none, c) ∧
        c.get k = some (Except.error KeyNotFound.key_not_found, c)) ∨
      (c.contains k = true ∧ ∃ v c1, c.tryGet k = some (some v, c1) ∧
        c.get k = some (Except.ok v, c1))) ∧
    c.getCopy k = c.get k := by
  refine ⟨?_, rfl⟩
  cases hf : mapFind c.cache_ k with
  | none =>
    exact Or.inl ⟨(contains_eq_false_iff c k).2 hf, tryGet_miss hf, get_miss hf⟩
  | some it =>
    right
    obtain ⟨n, hn, ha, _, htry⟩ := tryGet_hit h.inv hf
    obtain ⟨n1, hn1, ha1, _, hget⟩ := get_hit h.inv hf
    have : n1 = n := addr_inj h.inv.addr_nodup hn hn1 (ha1.trans ha.symm)
    subst this
    exact ⟨by simp [Cache.contains, hf], _, _, htry, hget⟩

/-- Witness of C12: the lookup of key 1 in `Cache(2, 0)` holding the keys 2 and 1. -/
theorem C12_get_tryGet_agree_witness :
    Reachable exTwo ∧ exTwo.contains 1 = true ∧
    (∃ v c1, exTwo.tryGet 1 = some (some v, c1) ∧ exTwo.get 1 = some (Except.ok v, c1)) ∧
    exTwo.getCopy 1 = exTwo.get 1 := by
  have hr : Reachable exTwo := ⟨2, 0, [Op.insert 1 10, Op.insert 2 20], by decide⟩
  have h := C12_get_tryGet_agree exTwo hr 1
  rcases h.1 with h1 | h1
  · exact absurd h1.1 (by decide)
  · exact ⟨hr, h1.1, h1.2, h.2⟩

/-- C18 (bijection without `remove`): in every state reached without a call of `remove`,
the keys visited by `cwalk` are pairwise distinct, they are exactly the keys for which
`contains` is true, and their number is `size()`. -/
theorem C18_bijection_without_remove (c : Cache K V) (h : ReachableNoRemove c) :
    (c.cwalk.map KeyValuePair.key).Nodup ∧
    (∀ k, c.contains k = true ↔ k ∈ c.cwalk.map KeyValuePair.key) ∧
    c.cwalk.length = c.size := by
  have hB := h.bij
  have hk : c.cwalk.map KeyValuePair.key = c.keys_.map Node.key := by
    simp [Cache.cwalk, List.map_map, Function.comp_def, Node.pair]
  refine ⟨hk ▸ hB.key_nodup, hB.contains_iff, ?_⟩
  simp [Cache.cwalk, Cache.size, hB.length_eq]

/-- Witness of C18: `Cache(2, 0)` after `insert(1, 10)`, `insert(2, 20)`. -/
theorem C18_bijection_without_remove_witness :
    ReachableNoRemove exTwo ∧ (exTwo.cwalk.map KeyValuePair.key).Nodup ∧
    (exTwo.contains 2 = true ↔ 2 ∈ exTwo.cwalk.map KeyValuePair.key) ∧
    exTwo.cwalk.length = exTwo.size := by
  have hr : ReachableNoRemove exTwo :=
    ⟨2, 0, [Op.insert 1 10, Op.insert 2 20], by decide, by decide⟩
  have h := C18_bijection_without_remove exTwo hr
  exact ⟨hr, h.1, h.2.1 2, h.2.2⟩

/-- C19 (`prune` is safe and terminates): in every reachable state, also after `remove`,
every map entry holds the address of a list node that carries its key, two entries hold
different addresses, and the list has at least `size()` nodes.  Hence the pruning step,
run on the state itself or, inside `insert` of a key that is not contained, on the state
with the new node, never meets an empty list (it yields a result) and makes at most as many
evictions as the list has nodes. -/
theorem C19_prune_safe (c : Cache K V) (h : Reachable c) :
    (∀ p ∈ c.cache_, ∃ n ∈ c.keys_, n.addr = p.2 ∧ n.key = p.1) ∧
    (∀ p ∈ c.cache_, ∀ q ∈ c.cache_, p ≠ q → p.2 ≠ q.2) ∧
    c.size ≤ c.keys_.length ∧
    (∃ cnt c1, c.prune = some (cnt, c1) ∧ cnt ≤ c.keys_.length) ∧
    (∀ k v, c.contains k = false →
      ∃ cnt c1, Cache.prune
          { cache_ := (k, c.next_) :: c.cache_, keys_ := ⟨c.next_, k, v⟩ :: c.keys_,
            maxSize_ := c.maxSize_, elasticity_ := c.elasticity_, next_ := c.next_ + 1 } =
          some (cnt, c1) ∧
        cnt ≤ c.keys_.length + 1 ∧ c.insert k v = some c1) := by
  have hinv := h.inv
  refine ⟨hinv.index_ok, ?_, hinv.length_le, ?_, ?_⟩
  · intro p hp q hq hne hadd
    obtain ⟨n, hn, ha, hk⟩ := hinv.index_ok p hp
    obtain ⟨n1, hn1, ha1, hk1⟩ := hinv.index_ok q hq
    have hnn : n1 = n := addr_inj hinv.addr_nodup hn hn1 (ha1.trans (hadd.symm.trans ha.symm))
    subst hnn
    have hkeys : p.1 = q.1 := hk.symm.trans hk1
    have h1 := mapFind_of_mem hinv.keys_nodup (show (p.1, p.2) ∈ c.cache_ from hp)
    have h2 := mapFind_of_mem hinv.keys_nodup (show (q.1, q.2) ∈ c.cache_ from hq)
    rw [hkeys, h2] at h1
    exact hne (Prod.ext hkeys (Option.some.inj h1).symm)
  · obtain ⟨cnt, c1, hp, _, _, _, _, _, _, _, hcnt, _⟩ := prune_spec c hinv
    exact ⟨cnt, c1, hp, hcnt⟩
  · intro k v hk
    have hf := (contains_eq_false_iff c k).1 hk
    obtain ⟨cnt, c1, hp, _, _, _, _, _, _, _, hcnt, _⟩ := prune_spec _ (hinv.emplace_inv hf v)
    refine ⟨cnt, c1, hp, by simpa using hcnt, ?_⟩
    rw [insert_miss_eq hf v, hp]
    rfl

/-- Witness of C19: `Cache(1, 0)` after `insert(1, 10)`, `remove(1)`, `insert(2, 20)`,
whose list holds the node that `remove` left behind. -/
theorem C19_prune_safe_witness :
    Reachable exRemoved ∧ exRemoved.size ≤ exRemoved.keys_.length ∧
    (∃ cnt c1, exRemoved.prune = some (cnt, c1) ∧ cnt ≤ exRemoved.keys_.length) := by
  have hr : Reachable exRemoved :=
    ⟨1, 0, [Op.insert 1 10, Op.remove 1, Op.insert 2 20], by decide⟩
  have h := C19_prune_safe exRemoved hr
  exact ⟨hr, h.2.2.1, h.2.2.2.1⟩

end Claims5

/-! ## Stored values along runs -/

section HistoryLemmas
variable {K V : Type} [DecidableEq K]

/-- A state whose map and list are parts of those of another state stores the same values
for the keys it contains. -/
theorem peek_of_sub {c1 c2 : Cache K V} (h1 : Inv c1) (h2 : Inv c2)
    (hc : ∀ p ∈ c1.cache_, p ∈ c2.cache_) (hk : ∀ n ∈ c1.keys_, n ∈ c2.keys_) (k : K)
    (hcont : c1.contains k = true) : c1.peek k = c2.peek k := by
  obtain ⟨it, hf⟩ := Option.isSome_iff_exists.1 hcont
  have hf2 : mapFind c2.cache_ k = some it :=
    mapFind_of_mem h2.keys_nodup (hc _ (mapFind_mem hf))
  obtain ⟨n, hn, ha, _⟩ := h1.lookup hf
  subst ha
  simp [Cache.peek, hf, hf2, deref_of_mem h1.addr_nodup hn,
    deref_of_mem h2.addr_nodup (hk n hn)]

/-- A call changes no stored value of a key that is contained afterwards, other than the
one an `insert` sets. -/
theorem step_peek (c c1 : Cache K V) (h : Inv c) (op : Op K V) (hs : step c op = some c1)
    (k : K) (hcont : c1.contains k = true) :
    c1.peek k = match op.inserts k with
      | some v => some v
      | none => c.peek k := by
  have hlook : ∀ (n : Node K V), n ∈ c.keys_ →
      (if mapFind c.cache_ k = some n.addr then some n.value else c.peek k) = c.peek k := by
    intro n hn
    by_cases e : mapFind c.cache_ k = some n.addr
    · simp [e, Cache.peek, deref_of_mem h.addr_nodup hn]
    · simp [e]
  have hgetlike : ∀ k0 : K, (∃ r, c.tryGet k0 = some (r, c1)) → c1.peek k = c.peek k := by
    intro k0 hex
    obtain ⟨r, hr⟩ := hex
    cases hf : mapFind c.cache_ k0 with
    | some it =>
      obtain ⟨n, hn, _, _, hget⟩ := tryGet_hit h hf
      rw [hget] at hr
      cases hr
      have := peek_promote c n n.value k
      simp only [] at this
      rw [this]
      exact hlook n hn
    | none =>
      rw [tryGet_miss hf] at hr
      cases hr
      rfl
  have hget2 : ∀ k0 : K, (∃ r, c.get k0 = some (r, c1)) → c1.peek k = c.peek k := by
    intro k0 hex
    obtain ⟨r, hr⟩ := hex
    cases hf : mapFind c.cache_ k0 with
    | some it =>
      obtain ⟨n, hn, _, _, hget⟩ := get_hit h hf
      rw [hget] at hr
      cases hr
      have := peek_promote c n n.value k
      simp only [] at this
      rw [this]
      exact hlook n hn
    | none =>
      rw [get_miss hf] at hr
      cases hr
      rfl
  cases op with
  | insert k0 v =>
    simp only [step] at hs
    cases hf : mapFind c.cache_ k0 with
    | some it =>
      obtain ⟨n, hn, ha, hkey, hins⟩ := insert_hit h hf v
      rw [hins] at hs
      cases hs
      rw [peek_promote c n v k]
      by_cases e : k0 = k
      · subst e
        simp [Op.inserts, hf, ha]
      · have hne : ¬ mapFind c.cache_ k = some n.addr := by
          intro hk
          obtain ⟨n2, hn2, ha2, hk2⟩ := h.lookup hk
          have := addr_inj h.addr_nodup hn hn2 ha2
          subst this
          exact e (hkey.symm.trans hk2)
        simp [Op.inserts, e, hne]
    | none =>
      obtain ⟨c2, j, hins, hinv, _, _, _, hkeys, hsub, _, _⟩ := insert_miss_spec h hf v
      rw [hins] at hs
      cases hs
      have hemp := h.emplace_inv hf v
      have hp := peek_of_sub hinv hemp (fun p hp => hsub.subset hp)
        (fun n hn => by
          rw [hkeys] at hn
          exact List.mem_of_mem_take hn) k hcont
      rw [hp, peek_emplace h rfl rfl k]
      by_cases e : k0 = k <;> simp [Op.inserts, e]
  | tryGet k0 =>
    simp only [step, Option.map_eq_some', Prod.exists, exists_eq_right] at hs
    exact hgetlike k0 hs
  | get k0 =>
    simp only [step, Option.map_eq_some', Prod.exists, exists_eq_right] at hs
    exact hget2 k0 hs
  | getCopy k0 =>
    simp only [step, Cache.getCopy, Option.map_eq_some', Prod.exists, exists_eq_right] at hs
    exact hget2 k0 hs
  | remove k0 =>
    simp only [step, Option.some.injEq] at hs
    subst hs
    simp only [Op.inserts]
    unfold Cache.remove at hcont ⊢
    cases hf : mapFind c.cache_ k0 with
    | none => rfl
    | some it =>
      simp only [hf, Cache.contains, mapFind_mapErase] at hcont
      have hne : ¬ k = k0 := by
        intro e
        simp [e] at hcont
      simp [Cache.peek, mapFind_mapErase, hne]
  | contains k0 => simp only [step, Option.some.injEq] at hs; subst hs; rfl
  | clear =>
    simp only [step, Option.some.injEq] at hs
    subst hs
    simp [Cache.contains, Cache.clear, mapFind] at hcont
  | size => simp only [step, Option.some.injEq] at hs; subst hs; rfl
  | empty => simp only [step, Option.some.injEq] at hs; subst hs; rfl
  | cwalk => simp only [step, Option.some.injEq] at hs; subst hs; rfl

/-- After a run, the value stored for a contained key is the value of its last insertion
in the run or, when the run has none, the value stored before the run. -/
theorem run_peek : ∀ (ops : List (Op K V)) (c c1 : Cache K V), Inv c →
    run c ops = some c1 → ∀ k, c1.contains k = true →
    c1.peek k = match lastInserted ops k with
      | some v => some v
      | none => c.peek k := by
  intro ops
  induction ops with
  | nil =>
    intro c c1 _ hrun k _
    simp only [run, Option.some.injEq] at hrun
    subst hrun
    rfl
  | cons op ops ih =>
    intro c c1 h hrun k hcont
    obtain ⟨c2, hs, hinv2, _⟩ := step_spec c h op
    have hrun2 : run c2 ops = some c1 := by simpa [run, hs] using hrun
    have h1 := ih c2 c1 hinv2 hrun2 k hcont
    simp only [lastInserted]
    cases hl : lastInserted ops k with
    | some v => rw [h1, hl]
    | none =>
      rw [hl] at h1
      simp only [] at h1 ⊢
      have hinv1 : Inv c1 := by
        obtain ⟨c3, h3, hinv3, _⟩ := run_spec ops c2 hinv2
        rw [hrun2] at h3
        cases h3
        exact hinv3
      have hc2 : c2.contains k = true := by
        rw [← peek_isSome hinv2 k, ← h1, peek_isSome hinv1 k]
        exact hcont
      rw [h1]
      exact step_peek c c2 h op hs k hc2

end HistoryLemmas

section Claims6
variable {K V : Type} [DecidableEq K]

/-- Moving a node of a list with distinct addresses to the front keeps the other nodes
in their order. -/
theorem filter_addr_split {a b : List (Node K V)} {n : Node K V}
    (hnd : ((a ++ n :: b).map Node.addr).Nodup) :
    (a ++ n :: b).filter (fun x => decide (x.addr ≠ n.addr)) = a ++ b := by
  rw [List.map_append, List.map_cons, List.nodup_append] at hnd
  obtain ⟨_, hb, hdis⟩ := hnd
  rw [List.nodup_cons] at hb
  have ha : ∀ x ∈ a, decide (x.addr ≠ n.addr) = true := by
    intro x hx
    have : x.addr ≠ n.addr := fun e =>
      hdis (List.mem_map.2 ⟨x, hx, rfl⟩) (by simp [e])
    simpa using this
  have hb2 : ∀ x ∈ b, decide (x.addr ≠ n.addr) = true := by
    intro x hx
    have : x.addr ≠ n.addr := fun e => hb.1 (e ▸ List.mem_map.2 ⟨x, hx, rfl⟩)
    simpa using this
  rw [List.filter_append, List.filter_cons_of_neg (by simp), List.filter_eq_self.2 ha,
    List.filter_eq_self.2 hb2]

/-- C13 (lookup promotes without reordering the rest): after any run of public operations
on a new cache, for a contained key `k`, `tryGet(k)` returns the value of the last
`insert` of `k` in the run; the entry of `k` leaves its place in the traversal for the
front, the other entries keep their order, and `size()` and the containment of every key
are unchanged. -/
theorem C13_lookup_promotes (m e : Nat) (ops : List (Op K V)) (c : Cache K V)
    (hrun : run (Cache.new m e) ops = some c) (k : K) (hk : c.contains k = true) :
    ∃ v c1 l1 l2, lastInserted ops k = some v ∧ c.tryGet k = some (some v, c1) ∧
      c.cwalk = l1 ++ ⟨k, v⟩ :: l2 ∧ c1.cwalk = ⟨k, v⟩ :: (l1 ++ l2) ∧
      c1.size = c.size ∧ ∀ k1, c1.contains k1 = c.contains k1 := by
  have hinv : Inv c := Reachable.inv ⟨m, e, ops, hrun⟩
  obtain ⟨it, hf⟩ := Option.isSome_iff_exists.1 hk
  obtain ⟨n, hn, ha, hkey, hget⟩ := tryGet_hit hinv hf
  have hpeek : c.peek k = some n.value := by
    subst ha
    simp [Cache.peek, hf, deref_of_mem hinv.addr_nodup hn]
  have hlast : lastInserted ops k = some n.value := by
    have h1 := run_peek ops (Cache.new m e) c (inv_new m e) hrun k hk
    rw [hpeek] at h1
    cases hl : lastInserted ops k with
    | some v =>
      rw [hl] at h1
      exact h1.symm
    | none =>
      rw [hl] at h1
      simp [Cache.peek, Cache.new, mapFind] at h1
  obtain ⟨a, b, hsplit⟩ := List.append_of_mem hn
  have hnd := hinv.addr_nodup
  rw [hsplit] at hnd
  have hfilter := filter_addr_split hnd
  rw [← hsplit] at hfilter
  refine ⟨n.value, _, a.map Node.pair, b.map Node.pair, hlast, hget, ?_, ?_, rfl,
    fun _ => rfl⟩
  · simp [Cache.cwalk, hsplit, Node.pair, hkey]
  · simp only [Cache.cwalk, hfilter, List.map_cons, List.map_append]
    simp [Node.pair, hkey]

/-- Witness of C13: `tryGet(1)` on `Cache(2, 0)` after `insert(1, 10)`, `insert(2, 20)`. -/
theorem C13_lookup_promotes_witness :
    run (Cache.new 2 0) [Op.insert 1 10, Op.insert 2 20] = some exTwo ∧
    exTwo.contains 1 = true ∧
    ∃ c1, exTwo.tryGet 1 = some (some 10, c1) ∧ c1.size = exTwo.size := by
  have hrun : run (Cache.new 2 0) [Op.insert 1 10, Op.insert 2 20] = some exTwo := by decide
  obtain ⟨v, c1, l1, l2, hv, hget, _, _, hsize, _⟩ :=
    C13_lookup_promotes 2 0 [Op.insert 1 10, Op.insert 2 20] exTwo hrun 1 rfl
  have hv10 : v = 10 := (Option.some.inj hv).symm
  subst hv10
  exact ⟨hrun, rfl, c1, hget, hsize⟩

/-- C20 (insert never alters another key's value): in every reachable state, `insert(k, v)`
succeeds, and every other key that is contained afterwards was contained before, and
`tryGet` returns for it the value it returned before the insertion. -/
theorem C20_insert_keeps_other_values (c : Cache K V) (h : Reachable c) (k k1 : K) (v : V)
    (hne : k1 ≠ k) :
    ∃ c1, c.insert k v = some c1 ∧
      (c1.contains k1 = true →
        c.contains k1 = true ∧
        ∃ v1 a b, c.tryGet k1 = some (some v1, a) ∧ c1.tryGet k1 = some (some v1, b)) := by
  have hinv := h.inv
  obtain ⟨c1, hins, hinv1, _⟩ := insert_spec c hinv k v
  refine ⟨c1, hins, fun hcont => ?_⟩
  have hp := step_peek c c1 hinv (Op.insert k v) hins k1 hcont
  have hkne : ¬ k = k1 := fun e => hne e.symm
  simp only [Op.inserts, hkne, if_false] at hp
  have hsome : (c1.peek k1).isSome = true := by
    rw [peek_isSome hinv1 k1]
    exact hcont
  obtain ⟨v1, hv1⟩ := Option.isSome_iff_exists.1 hsome
  obtain ⟨a, ha⟩ := tryGet_eq_peek hinv k1
  obtain ⟨b, hb⟩ := tryGet_eq_peek hinv1 k1
  refine ⟨?_, v1, a, b, ?_, ?_⟩
  · rw [← peek_isSome hinv k1, ← hp, hv1]
    rfl
  · rw [ha, ← hp, hv1]
  · rw [hb, hv1]

/-- Witness of C20: `insert(3, 30)` on `Cache(2, 0)` holding the keys 2 and 1 keeps the
value of key 2. -/
theorem C20_insert_keeps_other_values_witness :
    Reachable exTwo ∧ (2 : Nat) ≠ 3 ∧
    ∃ c1, exTwo.insert 3 30 = some c1 ∧
      (c1.contains 2 = true →
        exTwo.contains 2 = true ∧
        ∃ v1 a b, exTwo.tryGet 2 = some (some v1, a) ∧ c1.tryGet 2 = some (some v1, b)) := by
  have hr : Reachable exTwo := ⟨2, 0, [Op.insert 1 10, Op.insert 2 20], by decide⟩
  exact ⟨hr, by decide, C20_insert_keeps_other_values exTwo hr 3 2 30 (by decide)⟩

end Claims6

/-! ## Conversion to `double` -/

section RoundingLemmas

theorem roundMult_ge (p n : Nat) : n / p * p ≤ roundMult p n := by
  unfold roundMult
  split_ifs <;> omega

theorem roundMult_le (p n : Nat) : roundMult p n ≤ n / p * p + p := by
  unfold roundMult
  split_ifs <;> omega

/-- Rounding to a multiple of `p` is monotone. -/
theorem roundMult_mono {p : Nat} {a b : Nat} (h : a ≤ b) :
    roundMult p a ≤ roundMult p b := by
  have hq : a / p ≤ b / p := Nat.div_le_div_right h
  rcases Nat.lt_or_eq_of_le hq with hlt | heq
  · have h1 : a / p * p + p ≤ b / p * p := by
      have := Nat.mul_le_mul_right p (Nat.succ_le_of_lt hlt)
      rw [Nat.succ_mul] at this
      exact this
    exact (roundMult_le p a).trans (h1.trans (roundMult_ge p b))
  · have ha := Nat.div_add_mod a p
    have hb := Nat.div_add_mod b p
    rw [heq] at ha
    have hr : a % p ≤ b % p := by omega
    unfold roundMult
    rw [heq]
    split_ifs <;> omega

theorem doubleExp_spec : ∀ (fuel k n : Nat), n < 2 ^ (53 + k + fuel) →
    (k = 0 ∨ 2 ^ (52 + k) ≤ n) →
    n < 2 ^ (53 + doubleExp fuel k n) ∧
      (doubleExp fuel k n = 0 ∨ 2 ^ (52 + doubleExp fuel k n) ≤ n) := by
  intro fuel
  induction fuel with
  | zero =>
    intro k n h1 h2
    exact ⟨h1, h2⟩
  | succ f ih =>
    intro k n h1 h2
    by_cases hlt : n < 2 ^ (53 + k)
    · have he : doubleExp (f + 1) k n = k := by simp only [doubleExp, hlt, if_true]
      rw [he]
      exact ⟨hlt, h2⟩
    · have he : doubleExp (f + 1) k n = doubleExp f (k + 1) n := by
        simp only [doubleExp, hlt, if_false]
      rw [he]
      apply ih (k + 1) n
      · rw [show 53 + (k + 1) + f = 53 + k + (f + 1) by omega]
        exact h1
      · right
        rw [show 52 + (k + 1) = 53 + k by omega]
        omega

/-- The exponent found for `n`: `n` is below `2 ^ (53 + e)`, and not below `2 ^ (52 + e)`
unless `e` is 0. -/
theorem doubleExp_self (n : Nat) :
    n < 2 ^ (53 + doubleExp n 0 n) ∧
      (doubleExp n 0 n = 0 ∨ 2 ^ (52 + doubleExp n 0 n) ≤ n) := by
  apply doubleExp_spec n 0 n _ (Or.inl rfl)
  have h1 : n < 2 ^ n := Nat.lt_two_pow n
  have h2 : 2 ^ n ≤ 2 ^ (53 + 0 + n) := Nat.pow_le_pow_right (by norm_num) (by omega)
  omega

/-- The conversion of a natural number to `double` is monotone. -/
theorem roundNat_mono {a b : Nat} (h : a ≤ b) : roundNat a ≤ roundNat b := by
  obtain ⟨ha1, ha2⟩ := doubleExp_self a
  obtain ⟨hb1, hb2⟩ := doubleExp_self b
  unfold roundNat
  generalize doubleExp a 0 a = ea at ha1 ha2 ⊢
  generalize doubleExp b 0 b = eb at hb1 hb2 ⊢
  have hle : ea ≤ eb := by
    by_contra hcon
    have h1 : 2 ^ (53 + eb) ≤ 2 ^ (52 + ea) := Nat.pow_le_pow_right (by norm_num) (by omega)
    rcases ha2 with h0 | h0 <;> omega
  rcases Nat.lt_or_eq_of_le hle with hlt | heq
  · have hpa : 0 < 2 ^ ea := Nat.pow_pos (by norm_num)
    have hpb : 0 < 2 ^ eb := Nat.pow_pos (by norm_num)
    have h1 := roundMult_le (2 ^ ea) a
    have hq : a / 2 ^ ea < 2 ^ 53 := by
      apply Nat.div_lt_of_lt_mul
      rw [← pow_add, Nat.add_comm]
      exact ha1
    have h2 : a / 2 ^ ea * 2 ^ ea + 2 ^ ea ≤ 2 ^ 53 * 2 ^ ea := by
      have := Nat.mul_le_mul_right (2 ^ ea) (Nat.succ_le_of_lt hq)
      rw [Nat.succ_mul] at this
      exact this
    have h3 : 2 ^ 53 * 2 ^ ea = 2 ^ (53 + ea) := (pow_add 2 53 ea).symm
    have h4 : 2 ^ (53 + ea) ≤ 2 ^ (52 + eb) := Nat.pow_le_pow_right (by norm_num) (by omega)
    have h5 : 2 ^ (52 + eb) ≤ b := by
      rcases hb2 with h0 | h0
      · omega
      · exact h0
    have h6 : 2 ^ 52 ≤ b / 2 ^ eb := by
      rw [Nat.le_div_iff_mul_le hpb, ← pow_add]
      exact h5
    have h7 : 2 ^ 52 * 2 ^ eb ≤ b / 2 ^ eb * 2 ^ eb := Nat.mul_le_mul_right _ h6
    have h8 : 2 ^ 52 * 2 ^ eb = 2 ^ (52 + eb) := (pow_add 2 52 eb).symm
    have h9 := roundMult_ge (2 ^ eb) b
    omega
  · rw [heq]
    exact roundMult_mono h

/-- The conversion of an integer to `double` is monotone. -/
theorem roundToDouble_mono {x y : Int} (h : x ≤ y) : roundToDouble x ≤ roundToDouble y := by
  unfold roundToDouble
  split_ifs with hx hy hy
  · have := roundNat_mono (show y.natAbs ≤ x.natAbs by omega)
    omega
  · omega
  · omega
  · have := roundNat_mono (show x.natAbs ≤ y.natAbs by omega)
    omega

/-- The comparison in `double` never finds an integer above another one unless it is. -/
theorem roundToDouble_lt_imp {x y : Int} (h : roundToDouble x < roundToDouble y) : x < y := by
  by_contra hcon
  have := roundToDouble_mono (show y ≤ x by omega)
  omega

end RoundingLemmas

/-! ## The TTL wrapper -/

section TimedLemmas
variable {K V : Type} [DecidableEq K]

end TimedLemmas

section Claims7
variable {K V : Type} [DecidableEq K]

end Claims7

section Claims8
variable {K V : Type} [DecidableEq K]

end Claims8

end lru17
